import Mathlib

/-!
# Verification of the DAG-Workflow-Executor core

A shallow embedding of the repository's core components, translated from the
JavaScript sources:

* `src/workflow/DAG.js` — the dependency graph (`DAG`, `addVertex`, `addEdge`,
  `removeEdge`, `removeVertex`, `#dfsFrom`, `topoSort`, `getEdges`,
  `isTerminal`);
* `src/unnamed/part_013` (= `Workflow.js`) — `Task` (state machine, `#attempt`,
  `execute`) and `Workflow` (`pause`/`resume`/`abort`, `add`, `#run`,
  `#process`, `try`, the `aborted`-enter handler);
* `src/unnamed/part_008` — the `StateMachine` transition validation
  (`Invalid state transition` errors).

JavaScript `Map`s are modelled as insertion-ordered association lists,
JavaScript `Set`s as insertion-ordered duplicate-free lists (`setAdd`).
A `Set` may contain the value `undefined` (this actually happens in
`#dfsFrom`'s comparator rewrite), so stored edge entries are `Option String`:
`some id` for an id, `none` for `undefined`.

The asynchronous scheduler is modelled as a deterministic sequential
interpreter (the behaviour under the default `maxConcurrent = 1`, with no
outside intervention while `process` runs); the interpreter records an event
trace so that ordering claims can be stated.
-/

namespace WfExec

/-- JavaScript runtime values, as far as the workflow core inspects them:
`Error` objects are first-class values (`Error.isError` checks for them),
rejected `allSettled` entries surface `undefined` through `.value`. -/
inductive JSVal where
  | undef : JSVal
  | num : Int → JSVal
  | str : String → JSVal
  | err : String → JSVal
deriving DecidableEq, Repr

/-- `Error.isError(v)` — true exactly for Error objects. -/
def JSVal.isError : JSVal → Bool
  | .err _ => true
  | _ => false

/-- JavaScript `Set.prototype.add`: append the element unless it is present. -/
def setAdd {β : Type} [DecidableEq β] (l : List β) (x : β) : List β :=
  if x ∈ l then l else l ++ [x]

/-- `new Set(iterable)`: insert each element in order, dropping duplicates. -/
def setOfList {β : Type} [DecidableEq β] (l : List β) : List β :=
  l.foldl setAdd []

/-- Stable insertion of `x` into a list visited left-to-right, using a
JavaScript-style three-way comparator: `x` goes before the first element `y`
with `c x y ≤ 0`. -/
def insertCmp {β : Type} (c : β → β → Int) (x : β) : List β → List β
  | [] => [x]
  | y :: ys => if c x y ≤ 0 then x :: y :: ys else y :: insertCmp c x ys

/-- `Array.prototype.sort(comparator)` on defined elements: a stable sort
consistent with the comparator (the observable behaviour of the engine's
stable sort for a consistent comparator). -/
def jsSortBy {β : Type} (c : β → β → Int) : List β → List β
  | [] => []
  | x :: xs => insertCmp c x (jsSortBy c xs)

/-- `Array.prototype.sort` on an array that may contain `undefined` entries:
`undefined` elements are moved to the end without consulting the comparator;
the rest are stably sorted. -/
def jsSortOpt {β : Type} (c : β → β → Int) (l : List (Option β)) :
    List (Option β) :=
  ((jsSortBy c (l.filterMap id)).map some) ++ l.filter (fun e => e.isNone)

/-! ## The DAG (`src/workflow/DAG.js`) -/

/-- `DAG.Vertex`: `{ id, payload, edges }` where `edges` is a `Set` of the
ids this vertex depends on (an entry is `none` when a comparator rewrite has
stored `undefined`, see `dfsRoot`). -/
structure Vertex (α : Type) where
  id : String
  payload : α
  edges : List (Option String)
deriving DecidableEq, Repr

/-- The `DAG` class state: the vertex `Map` (insertion order), plus the
`#dirty` flag and `#cached` topological order backing `topoSort`'s cache. -/
structure DAG (α : Type) where
  vertices : List (Vertex α)
  dirty : Bool
  cached : List α
deriving DecidableEq, Repr

namespace DAG

/-- `new DAG()`. -/
def empty (α : Type) : DAG α := ⟨[], true, []⟩

/-- `this.#vertices.get(id)`. -/
def findV {α : Type} (g : DAG α) (i : String) : Option (Vertex α) :=
  g.vertices.find? (fun v => v.id = i)

/-- `this.#vertices.has(id)`. -/
def hasV {α : Type} (g : DAG α) (i : String) : Bool :=
  (g.findV i).isSome

/-- Replace the stored vertex named `i` (JS mutates the vertex object held in
the `Map`; ids and the order of entries are untouched). -/
def updateV {α : Type} (g : DAG α) (i : String) (v' : Vertex α) : DAG α :=
  { g with vertices := g.vertices.map (fun v => if v.id = i then v' else v) }

/-- `addVertex(id, payload, edges)`: fails when the id exists, else stores a
fresh vertex whose edge set is `new Set(edges)`; sets `#dirty`.  The edge
list is *not* validated: dangling ids and even `id` itself are stored as
given. -/
def addVertex {α : Type} (g : DAG α) (i : String) (p : α)
    (edges : List String) : Except String (DAG α) :=
  if g.hasV i then .error "Vertex ID already exists!"
  else .ok { g with
    vertices := g.vertices ++ [⟨i, p, setOfList (edges.map some)⟩],
    dirty := true }

/-- `this.#vertices.get(connId)` for a stored edge entry (`undefined` maps to
`undefined`). -/
def resolveE {α : Type} (g : DAG α) (e : Option String) : Option (Vertex α) :=
  e.bind g.findV

/-- `getEdges(id)` when the vertex exists: the stored edge entries resolved
to vertices (`undefined` for a missing target). -/
def getEdgesV {α : Type} (g : DAG α) (v : Vertex α) : List (Option (Vertex α)) :=
  v.edges.map (g.resolveE)

/-- `conn?.id` — the id the traversal recurses on for a resolved edge. -/
def connId {α : Type} (e : Option (Vertex α)) : Option String :=
  e.map (fun v => v.id)

/-- `removeEdge(fromId, toId)`: drop `toId` from the source's edge set and
set `#dirty` whenever the source exists. -/
def removeEdge {α : Type} (g : DAG α) (f t : String) : DAG α :=
  match g.findV f with
  | none => g
  | some v =>
    { (g.updateV f { v with edges := v.edges.filter (fun e => e ≠ some t) })
      with dirty := true }

/-- `removeVertex(id)`: delete the vertex from the `Map` and set `#dirty`.
The incoming-edge scrub loop in the source compares a *resolved vertex
object* (`getAllEdges` yields `[id, vertex]`) against the string `id` with
`===`, which is never true, so no incoming edge is actually removed; the
loop is therefore a no-op and is omitted here. -/
def removeVertex {α : Type} (g : DAG α) (i : String) : DAG α :=
  { g with vertices := g.vertices.filter (fun v => v.id ≠ i), dirty := true }

/-- Number of vertices not yet in the visited set — the bound on how many
new vertices a traversal can still visit (used as fuel). -/
def unvisited {α : Type} (g : DAG α) (vis : List String) : Nat :=
  (g.vertices.filter (fun v => v.id ∉ vis)).length

/-- `for (const conn of edges) yield* this.#dfsFrom(conn?.id, visited)` —
visit each entry of the resolved edge list in order with the traversal
`rec`, threading the visited set and concatenating the yields. -/
def dfsList {α : Type}
    (rec : List String → Option String → List (Vertex α) × List String) :
    List String → List (Option String) → List (Vertex α) × List String
  | vis, [] => ([], vis)
  | vis, c :: rest =>
    let r1 := rec vis c
    let r2 := dfsList rec r1.2 rest
    (r1.1 ++ r2.1, r2.2)

/-- `#dfsFrom(id, visited, null)` — the traversal with no comparator, which
performs no mutation (the `if (comparator)` block is skipped, and the
recursive calls always pass no comparator).  Returns the vertices yielded
in post-order and the final visited set.  `fuel` bounds the recursion
depth; it is consumed only when a new vertex is entered, so any
`fuel ≥ unvisited g vis` reproduces the JS original (which has no fuel). -/
def dfsVisit {α : Type} (g : DAG α) : Nat → List String → Option String →
    List (Vertex α) × List String
  | _, vis, none => ([], vis)
  | fuel, vis, some i =>
    if i ∈ vis then ([], vis)
    else
      match g.findV i with
      | none => ([], vis)
      | some v =>
        match fuel with
        | 0 => ([], vis)
        | fuel' + 1 =>
          let conns := (g.getEdgesV v).map connId
          let res := dfsList (dfsVisit g fuel') (vis ++ [i]) conns
          (res.1 ++ [v], res.2)

/-- `"Invalid edge, would create cycle!"`. -/
def cycleMsg : String := "Invalid edge, would create cycle!"

/-- The cycle test inside `addEdge`: whether the traversal from `toId`
yields a vertex whose id is `fromId`. -/
def reachCheck {α : Type} (g : DAG α) (f t : String) : Bool :=
  (dfsVisit g g.vertices.length [] (some t)).1.any (fun v => v.id = f)

/-- `addEdge(fromId, toId)`.  The result pairs the raised error (if any)
with the graph afterwards: both throws happen before any mutation, and the
mutation itself only runs when both endpoints exist. -/
def addEdge {α : Type} (g : DAG α) (f t : String) : Option String × DAG α :=
  if f = t then (some cycleMsg, g)
  else if reachCheck g f t then (some cycleMsg, g)
  else
    match g.findV f with
    | none => (none, g)
    | some v =>
      if g.hasV t then
        (none, { (g.updateV f { v with edges := setAdd v.edges (some t) })
                 with dirty := true })
      else (none, g)

/-- `#dfsFrom(id, visited, comparator)` as called from `topoSort`: with a
comparator, the start vertex's resolved edges are sorted, its stored edge
`Set` is cleared and re-filled with `conn?.id` of the sorted entries, and
the recursion proceeds over the sorted entries *without* the comparator
(the recursive call passes only `(conn?.id, visited)`). -/
def dfsRoot {α : Type} (g : DAG α) (fuel : Nat) (vis : List String)
    (oid : Option String) (cmp : Option (Vertex α → Vertex α → Int)) :
    List (Vertex α) × DAG α × List String :=
  match cmp with
  | none =>
    let r := dfsVisit g fuel vis oid
    (r.1, g, r.2)
  | some c =>
    match oid with
    | none => ([], g, vis)
    | some i =>
      if i ∈ vis then ([], g, vis)
      else
        match g.findV i with
        | none => ([], g, vis)
        | some v =>
          let edges := jsSortOpt c (g.getEdgesV v)
          let newEdges := (edges.map connId).foldl setAdd []
          let v2 : Vertex α := { v with edges := newEdges }
          let g2 := g.updateV i v2
          let res := dfsList (dfsVisit g2 fuel) (vis ++ [i]) (edges.map connId)
          (res.1 ++ [v2], g2, res.2)

/-- One iteration of `topoSort`'s outer loop body. -/
def topoStep {α : Type} (cmp : Option (Vertex α → Vertex α → Int))
    (acc : List (Vertex α) × DAG α × List String) (v : Vertex α) :
    List (Vertex α) × DAG α × List String :=
  if v.id ∈ acc.2.2 then acc
  else
    let r := dfsRoot acc.2.1 acc.2.1.vertices.length acc.2.2 (some v.id) cmp
    (acc.1 ++ r.1, r.2.1, r.2.2)

/-- `topoSort(comparator)`: return the cache when clean; otherwise run the
DFS from every not-yet-visited vertex (the start list itself sorted when a
comparator is given), cache the payload order, and clear `#dirty`. -/
def topoSort {α : Type} (g : DAG α)
    (cmp : Option (Vertex α → Vertex α → Int)) : List α × DAG α :=
  if g.dirty = false then (g.cached, g)
  else
    let verts := match cmp with
      | some c => jsSortBy c g.vertices
      | none => g.vertices
    let r := verts.foldl (topoStep cmp) ([], g, [])
    (r.1.map (fun v => v.payload),
     { r.2.1 with cached := r.1.map (fun v => v.payload), dirty := false })

/-- `isTerminal(id)`: no stored edge set mentions `id`. -/
def isTerminal {α : Type} (g : DAG α) (i : String) : Bool :=
  (g.vertices.filter (fun v => some i ∈ v.edges)).length = 0

end DAG

/-! ## The Task lifecycle (`src/unnamed/part_013`, class `Task`) -/

/-- Task lifecycle states (`Task.stateDef`). -/
inductive TState where
  | created | pending | running | succeeded | failed | cancelled | removed
deriving DecidableEq, Repr

def TState.name : TState → String
  | .created => "created" | .pending => "pending" | .running => "running"
  | .succeeded => "succeeded" | .failed => "failed"
  | .cancelled => "cancelled" | .removed => "removed"

/-- Task lifecycle transitions (`Task.stateDef.transitions`). -/
inductive TTrans where
  | add | start | cancel | succeed | fail | timeout | retry | remove
deriving DecidableEq, Repr

/-- The `from` field of each transition; `none` stands for `"*"`. -/
def TTrans.src : TTrans → Option (List TState)
  | .add => some [.created]
  | .start => some [.pending]
  | .cancel => some [.pending]
  | .succeed => some [.running]
  | .fail => some [.running]
  | .timeout => some [.running]
  | .retry => some [.failed]
  | .remove => none

/-- The `to` field of each transition. -/
def TTrans.tgt : TTrans → TState
  | .add => .pending
  | .start => .running
  | .cancel => .cancelled
  | .succeed => .succeeded
  | .fail => .failed
  | .timeout => .failed
  | .retry => .pending
  | .remove => .removed

/-- Workflow lifecycle states (`Workflow.stateDef`). -/
inductive WState where
  | idle | executing | paused | done | aborted
deriving DecidableEq, Repr

def WState.name : WState → String
  | .idle => "idle" | .executing => "executing" | .paused => "paused"
  | .done => "done" | .aborted => "aborted"

/-- Workflow lifecycle transitions; `endT` models the transition named
`end` (a reserved word in Lean). -/
inductive WTrans where
  | begin | pause | resume | endT | abort
deriving DecidableEq, Repr

/-- The `from` states of each workflow transition. -/
def WTrans.src : WTrans → List WState
  | .begin => [.idle]
  | .pause => [.executing]
  | .resume => [.paused]
  | .endT => [.executing, .paused]
  | .abort => [.executing, .paused]

/-- The `to` state of each workflow transition. -/
def WTrans.tgt : WTrans → WState
  | .begin => .executing
  | .pause => .paused
  | .resume => .executing
  | .endT => .done
  | .abort => .aborted

/-- The settled outcome of one dependency future, as observed by
`Promise.allSettled`: `.value` of a rejected entry is `undefined`. -/
inductive SettledV where
  | fulfilled (v : JSVal)
  | rejected (e : JSVal)
deriving DecidableEq, Repr

/-- `s.value`. -/
def SettledV.val : SettledV → JSVal
  | .fulfilled v => v
  | .rejected _ => (.undef)

/-- `Error.isError(s.value) || s.status === 'rejected'` — the per-dependency
test in `Workflow.#run`. -/
def SettledV.isBad : SettledV → Bool
  | .fulfilled v => v.isError
  | .rejected _ => true

/-- The settled outcome of one raced attempt of the user work: the work
resolves, the work rejects, or (when a timeout is configured) the timer wins
the `Time.timeout` race. -/
inductive AttemptOutcome where
  | ok (v : JSVal)
  | fail (e : JSVal)
  | timedOut
deriving DecidableEq, Repr

/-- Trace events: the four state-machine events of each task / workflow
transition, plus interpreter markers — the synchronous call of the user
work, a requested retry delay (`Time.wait`), and the settlement of a task's
future in `Workflow.#run`. -/
inductive Ev where
  | tBefore (id : String) (tr : TTrans)
  | tLeave (id : String) (s : TState)
  | tEnter (id : String) (s : TState)
  | tAfter (id : String) (tr : TTrans)
  | wBefore (tr : WTrans)
  | wLeave (s : WState)
  | wEnter (s : WState)
  | wAfter (tr : WTrans)
  | workCalled (id : String) (attempt : Nat)
  | waited (id : String) (ms : Nat)
  | settled (id : String) (out : SettledV)
deriving DecidableEq, Repr

/-- One `Task` object: the configuration fields fixed at construction
(`id`, `reliesOn`, `priority`, `retryLimit`, `backoff`, `timeout`, `work`)
and the mutable fields (`#fsm` state, `#attempts`, `#result`, `#error`).
The user work is modelled by the settled outcome of each raced attempt,
indexed by the attempt counter. -/
structure TaskM where
  id : String
  reliesOn : List String
  priority : Int
  retryLimit : Nat
  backoff : Nat
  timeoutMs : Option Nat
  work : Nat → List JSVal → AttemptOutcome
  state : TState
  attempts : Nat
  result : JSVal
  error : Option JSVal

/-- `StateMachine.invoke` on a task FSM (`src/unnamed/part_008`): validate
the current state against `from` (`"Invalid state transition"` otherwise),
emit `before` / `leave`, assign the state, emit `enter` / `after`.  The
`after` handlers wired in the `Task` constructor run here: `start` clears
`#error`, `cancel` installs the `"Task was cancelled!"` error, `remove`
unregisters the task from the event-plane manager (no field of the task
itself changes). -/
def taskInvoke (t : TaskM) (tr : TTrans) : Except String (TaskM × List Ev) :=
  let ok : Bool := match tr.src with
    | some froms => t.state ∈ froms
    | none => true
  if ok then
    let t1 : TaskM := { t with state := tr.tgt }
    let t2 : TaskM := match tr with
      | .start => { t1 with error := none }
      | .cancel => { t1 with error := some (.err "Task was cancelled!") }
      | _ => t1
    .ok (t2, [.tBefore t.id tr, .tLeave t.id t.state,
              .tEnter t.id tr.tgt, .tAfter t.id tr])
  else
    .error ("Invalid state transition: " ++ t.state.name ++ " -> "
      ++ tr.tgt.name)

/-- `Task.#attempt(depResults)`: await the pause gate (always open in this
no-intervention sequential model), fail if removed, transition `start`,
call the work (racing the timer when a timeout is set), then either store
the result and transition `succeed`, re-raise the rejection, or — when the
timer wins — transition `timeout` and raise the `TimedOut` error. -/
def attempt (t : TaskM) (deps : List JSVal) :
    Except JSVal JSVal × TaskM × List Ev :=
  if t.state = .removed then
    (.error (.err ("Task " ++ t.id ++ " was removed before execution")),
     t, [])
  else
    match taskInvoke t .start with
    | .error m => (.error (.err m), t, [])
    | .ok (t1, evs1) =>
      let evs1 := evs1 ++ [Ev.workCalled t1.id t1.attempts]
      match t1.work t1.attempts deps with
      | .ok v =>
        let t2 : TaskM := { t1 with result := v }
        match taskInvoke t2 .succeed with
        | .error m => (.error (.err m), t2, evs1)
        | .ok (t3, evs2) => (.ok v, t3, evs1 ++ evs2)
      | .fail e => (.error e, t1, evs1)
      | .timedOut =>
        match taskInvoke t1 .timeout with
        | .error m => (.error (.err m), t1, evs1)
        | .ok (t2, evs2) =>
          (.error (.err ("Task " ++ t1.id ++ " timed out after "
              ++ toString (t1.timeoutMs.getD 0) ++ "ms")),
           t2, evs1 ++ evs2)

/-- The retry loop of `Task.execute`, by remaining iterations
(`rem = retryLimit + 1 - attempts`): try an attempt; on a raised error
store it, transition `fail` if not already `failed`, re-raise when
`attempts == retryLimit`, else transition `retry`, wait
`2 ** attempts * backoff` ms and increment `attempts`. -/
def execLoop (deps : List JSVal) : TaskM → Nat →
    Except JSVal JSVal × TaskM × List Ev
  | t, 0 => (.ok .undef, t, [])
  | t, rem + 1 =>
    match attempt t deps with
    | (.ok v, t1, tr1) => (.ok v, t1, tr1)
    | (.error e, t1, tr1) =>
      let t2 : TaskM := { t1 with error := some e }
      let step : Except String (TaskM × List Ev) :=
        if t2.state ≠ .failed then taskInvoke t2 .fail else .ok (t2, [])
      match step with
      | .error m => (.error (.err m), t2, tr1)
      | .ok (t3, tr2) =>
        if t3.attempts = t3.retryLimit then
          (.error (t3.error.getD .undef), t3, tr1 ++ tr2)
        else
          match taskInvoke t3 .retry with
          | .error m => (.error (.err m), t3, tr1 ++ tr2)
          | .ok (t4, tr3) =>
            let ms := 2 ^ t4.attempts * t4.backoff
            let t5 : TaskM := { t4 with attempts := t4.attempts + 1 }
            let r := execLoop deps t5 rem
            (r.1, r.2.1, tr1 ++ tr2 ++ tr3 ++ [Ev.waited t4.id ms] ++ r.2.2)

/-- `Task.execute(depResults)`: fail immediately with the installed error
when `cancelled`, else run the retry loop from `attempts = 0`. -/
def execute (t : TaskM) (deps : List JSVal) :
    Except JSVal JSVal × TaskM × List Ev :=
  if t.state = .cancelled then (.error (t.error.getD .undef), t, [])
  else execLoop deps { t with attempts := 0 } (t.retryLimit + 1)

/-! ## The Workflow (`src/unnamed/part_013`, class `Workflow`)

The `Workflow` owns the DAG (whose vertex payloads are the `Task` objects;
here the payload is the task's id and the task objects live in the `tasks`
store, since Lean values are immutable and the JS object reference is its
identity), the workflow FSM, the `processed` map of settled futures, the
pause gate and the deferred-removal set.  The scheduler is modelled
sequentially — the behaviour under the default `maxConcurrent = 1` with no
outside intervention while it runs — so the semaphore bookkeeping and the
pause gate are not consulted. -/

structure WfM where
  id : String
  wstate : WState
  pauseG : Bool
  tasks : List (String × TaskM)
  dag : DAG String
  processed : List (String × SettledV)
  toRemove : List String

/-- Look a task up by id (the DAG payload holds the same object). -/
def storeGet (wf : WfM) (i : String) : Option TaskM :=
  (wf.tasks.find? (fun p => p.1 = i)).map (fun p => p.2)

/-- Mutate the task object named `i` (all aliases observe the change). -/
def storeSet (wf : WfM) (i : String) (t : TaskM) : WfM :=
  { wf with tasks := wf.tasks.map (fun p => if p.1 = i then (i, t) else p) }

/-- `this.#processed.get(id)` — the settled value of the memoized future. -/
def lookupProc (wf : WfM) (i : String) : Option SettledV :=
  (wf.processed.find? (fun p => p.1 = i)).map (fun p => p.2)

/-- `Map.prototype.set`: overwrite an existing key in place, else append. -/
def procSet (l : List (String × SettledV)) (i : String) (s : SettledV) :
    List (String × SettledV) :=
  if (l.find? (fun p => p.1 = i)).isSome then
    l.map (fun p => if p.1 = i then (i, s) else p)
  else l ++ [(i, s)]

/-- The priority of the task stored under id `i` (the `getOrdered`
comparator reads `payload.priority`; every payload id names a stored task
in any workflow built through `add`). -/
def prW (wf : WfM) (i : String) : Int :=
  match storeGet wf i with
  | some t => t.priority
  | none => 0

/-- `getOrdered()`: `topoSort` under the "higher priority first" comparator.
`topoSort` writes its cache, so the updated workflow is returned too. -/
def getOrderedM (wf : WfM) : List String × WfM :=
  let r := DAG.topoSort wf.dag
    (some (fun a b => prW wf b.payload - prW wf a.payload))
  (r.1, { wf with dag := r.2 })

/-- The `before`-handler of `end` / `abort`: detach each deferred-removal
vertex and forget its future, then clear the set. -/
def drainRemove (wf : WfM) : WfM :=
  { wf with
    dag := wf.toRemove.foldl DAG.removeVertex wf.dag,
    processed := wf.processed.filter (fun p => p.1 ∉ wf.toRemove),
    toRemove := [] }

/-- `getOrdered().filter(t => t.state === "pending").forEach(t => t.cancel())`
— the body of the `aborted`-enter handler.  The pending snapshot is taken
first; a `cancel` that throws propagates out of `forEach` immediately. -/
def cancelTasks (wf : WfM) : List String → Except String Unit × WfM × List Ev
  | [] => (.ok (), wf, [])
  | i :: rest =>
    match storeGet wf i with
    | none => cancelTasks wf rest
    | some t =>
      match taskInvoke t .cancel with
      | .error m => (.error m, wf, [])
      | .ok (t2, evs) =>
        let r := cancelTasks (storeSet wf i t2) rest
        (r.1, r.2.1, evs ++ r.2.2)

/-- The `aborted`-enter handler: cancel every task of `getOrdered()` still
observed `pending`. -/
def abortEnter (wf : WfM) : Except String Unit × WfM × List Ev :=
  let o := getOrderedM wf
  let ps := ((o.1.filterMap (fun i => (storeGet o.2 i).map (fun t => (i, t))))
      |>.filter (fun p => p.2.state = .pending)).map (fun p => p.1)
  cancelTasks o.2 ps

/-- `StateMachine.invoke` on the workflow FSM, with the handlers wired in
the `Workflow` constructor: `end.before` / `abort.before` drain the
deferred-removal set, leaving `paused` clears the pause gate, entering
`paused` allocates it, entering `aborted` cancels the pending tasks.  A
handler that throws aborts the remaining chain (the `after` event of an
invoke whose `aborted`-enter handler threw is never emitted), but the state
assignment that already happened persists. -/
def wfInvoke (wf : WfM) (tr : WTrans) : Except String Unit × WfM × List Ev :=
  if wf.wstate ∈ tr.src then
    let wf1 := if tr = .endT ∨ tr = .abort then drainRemove wf else wf
    let evs1 := [Ev.wBefore tr, Ev.wLeave wf.wstate]
    let wf2 := if wf1.wstate = .paused then { wf1 with pauseG := false }
      else wf1
    let wf3 : WfM := { wf2 with wstate := tr.tgt }
    match tr.tgt with
    | .paused =>
      (.ok (), { wf3 with pauseG := true },
       evs1 ++ [Ev.wEnter .paused, Ev.wAfter tr])
    | .aborted =>
      let r := abortEnter wf3
      match r.1 with
      | .ok _ => (.ok (), r.2.1, evs1 ++ [Ev.wEnter .aborted] ++ r.2.2
          ++ [Ev.wAfter tr])
      | .error m => (.error m, r.2.1, evs1 ++ [Ev.wEnter .aborted] ++ r.2.2)
    | s => (.ok (), wf3, evs1 ++ [Ev.wEnter s, Ev.wAfter tr])
  else
    (.error ("Invalid state transition: " ++ wf.wstate.name ++ " -> "
      ++ tr.tgt.name), wf, [])

/-- `Workflow.pause()`: a no-op while already paused. -/
def pauseW (wf : WfM) : Except String Unit × WfM × List Ev :=
  if wf.wstate = .paused then (.ok (), wf, [])
  else wfInvoke wf .pause

/-- `Workflow.resume()`: a no-op unless paused. -/
def resumeW (wf : WfM) : Except String Unit × WfM × List Ev :=
  if wf.wstate ≠ .paused then (.ok (), wf, [])
  else wfInvoke wf .resume

/-- `Workflow.abort()`. -/
def abortW (wf : WfM) : Except String Unit × WfM × List Ev :=
  wfInvoke wf .abort

/-- The enumerated task construction options (§6). -/
structure TaskCfg where
  id : String
  reliesOn : List String := []
  priority : Int := 0
  retryLimit : Nat := 0
  timeoutMs : Option Nat := none
  backoff : Nat := 200

/-- The `Task` constructor: populate the fields from the config, register
the FSM and invoke `add` (`created → pending`). -/
def mkTask (work : Nat → List JSVal → AttemptOutcome) (cfg : TaskCfg) :
    Except String TaskM :=
  let t : TaskM :=
    { id := cfg.id, reliesOn := cfg.reliesOn, priority := cfg.priority,
      retryLimit := cfg.retryLimit, backoff := cfg.backoff,
      timeoutMs := cfg.timeoutMs, work := work, state := .created,
      attempts := 0, result := .undef, error := none }
  match taskInvoke t .add with
  | .ok (t1, _) => .ok t1
  | .error m => .error m

/-- `Workflow.add(work, config)`: construct the `Task` and insert it into
the DAG with its `reliesOn` list as the vertex's edges; a `DuplicateId`
error bubbles up unchanged. -/
def addW (wf : WfM) (work : Nat → List JSVal → AttemptOutcome)
    (cfg : TaskCfg) : Except String (WfM × TaskM) :=
  match mkTask work cfg with
  | .error m => .error m
  | .ok task =>
    match DAG.addVertex wf.dag task.id task.id task.reliesOn with
    | .error m => .error m
    | .ok dag2 =>
      .ok ({ wf with dag := dag2, tasks := wf.tasks ++ [(task.id, task)] },
           task)

/-- A fresh workflow (`new Workflow(config)`). -/
def newWf (i : String) : WfM :=
  { id := i, wstate := .idle, pauseG := false, tasks := [],
    dag := DAG.empty String, processed := [], toRemove := [] }

/-- The tail of the `withLock` body of `Workflow.#run(id)`, after the
dependency futures have settled: cancel the task when any dependency
settled badly, call `execute` with the dependency *values*, and capture
any raised error as the resolved value (`.catch(err => err)`). -/
def finishRun (wf : WfM) (i : String) (sList : List SettledV) :
    SettledV × WfM × List Ev :=
  match storeGet wf i with
  | none => (.fulfilled .undef, wf, [])
  | some t =>
    let step : Except JSVal (TaskM × List Ev) :=
      if sList.any SettledV.isBad then
        match taskInvoke t .cancel with
        | .ok (t2, evs) => .ok (t2, evs)
        | .error m => .error (.err m)
      else .ok (t, [])
    match step with
    | .error e => (.fulfilled e, wf, [])
    | .ok (t2, evs) =>
      let wfA := storeSet wf i t2
      let r := execute t2 (sList.map SettledV.val)
      let wfB := storeSet wfA i r.2.1
      match r.1 with
      | .ok v => (.fulfilled v, wfB, evs ++ r.2.2)
      | .error e => (.fulfilled e, wfB, evs ++ r.2.2)

/-- Run each dependency in order (`task.reliesOn.map(did => this.#run(did))`
under `Promise.allSettled`), collecting the settled outcomes. -/
def runDeps (runT : WfM → String → SettledV × WfM × List Ev) :
    WfM → List String → List SettledV × WfM × List Ev
  | wf, [] => ([], wf, [])
  | wf, d :: rest =>
    let r1 := runT wf d
    let r2 := runDeps runT r1.2.1 rest
    (r1.1 :: r2.1, r2.2.1, r1.2.2 ++ r2.2.2)

/-- `Workflow.#run(id)`: memoized per task; unknown ids reject
(`Unknown task id`) and are not memoized; otherwise settle the
dependencies, finish the run, memoize the settled value and emit the
settlement.  `fuel` bounds the recursion (a dependency cycle, which the JS
original answers with a deadlock, rejects once the fuel runs out). -/
def runTask : Nat → WfM → String → SettledV × WfM × List Ev
  | 0, wf, i =>
    let s := SettledV.rejected (.err "recursion fuel exhausted")
    (s, wf, [Ev.settled i s])
  | fuel + 1, wf, i =>
    match lookupProc wf i with
    | some s => (s, wf, [])
    | none =>
      match storeGet wf i with
      | none =>
        let s := SettledV.rejected (.err ("Unknown task id: " ++ i))
        (s, wf, [Ev.settled i s])
      | some t =>
        let rd := runDeps (runTask fuel) wf t.reliesOn
        let fr := finishRun rd.2.1 i rd.1
        let wf2 : WfM :=
          { fr.2.1 with processed := procSet fr.2.1.processed i fr.1 }
        (fr.1, wf2, rd.2.2 ++ fr.2.2 ++ [Ev.settled i fr.1])

/-- The scheduler loop of `Workflow.#process`: launch `#run` for every
ordered task not yet in `processed`. -/
def runAll (fuel : Nat) : WfM → List String → WfM × List Ev
  | wf, [] => (wf, [])
  | wf, i :: rest =>
    if (lookupProc wf i).isSome then runAll fuel wf rest
    else
      let r := runTask fuel wf i
      let r2 := runAll fuel r.2.1 rest
      (r2.1, r.2.2 ++ r2.2)

/-- `Workflow.#process()`: transition `begin`, stop when aborted, await the
pause gate (open here), then run every ordered task and await the settled
futures. -/
def processW (fuel : Nat) (wf : WfM) : WfM × List Ev :=
  match wfInvoke wf .begin with
  | (.error _, wf1, evs) => (wf1, evs)
  | (.ok _, wf1, evs) =>
    if wf1.wstate = .aborted then (wf1, evs)
    else
      let o := getOrderedM wf1
      let r := runAll fuel o.2 o.1
      (r.1, evs ++ r.2)

/-- The filter options of `Workflow.stream`; `anyState` records whether the
`states` list contains `"*"`. -/
structure StreamFilters where
  states : List TState := [.succeeded]
  anyState : Bool := false
  filterF : TaskM → Bool := fun _ => true

/-- The body of `Workflow.stream(filters)`: of the tasks observed from the
default iterator, keep those matching the state filter, DAG-terminal, and
accepted by the custom filter.  The loop body contains no throw site: the
observed tasks are yielded as values. -/
def streamSelect (wf : WfM) (fl : StreamFilters) (obs : List TaskM) :
    List TaskM :=
  obs.filter (fun t =>
    (fl.anyState || t.state ∈ fl.states)
      && DAG.isTerminal wf.dag t.id && fl.filterF t)

/-- The filter options of `Workflow.try`. -/
structure TryFilters where
  onlyTerminal : Bool := true
  filterF : TaskM → Bool := fun _ => true

/-- The loop of `Workflow.try(filters)` over the tasks observed from the
default iterator: on the first task observed in state `failed`, call
`abort()` and raise that task's error out of the iterator; otherwise yield
`task.result` when the filters accept it. -/
def tryRun (wf : WfM) (fl : TryFilters) :
    List TaskM → Except JSVal (List JSVal) × WfM × List Ev
  | [] => (.ok [], wf, [])
  | t :: rest =>
    if t.state = .failed then
      let r := abortW wf
      match r.1 with
      | .ok _ => (.error (t.error.getD .undef), r.2.1, r.2.2)
      | .error m => (.error (.err m), r.2.1, r.2.2)
    else
      let keep := (!fl.onlyTerminal || DAG.isTerminal wf.dag t.id)
        && fl.filterF t
      let r := tryRun wf fl rest
      match r.1 with
      | .ok vs => (.ok (if keep then t.result :: vs else vs), r.2.1, r.2.2)
      | .error e => (.error e, r.2.1, r.2.2)


/-! ## Reachability and acyclicity (specification vocabulary for the DAG) -/

namespace DAG

/-- There is an effective edge from `i` to `j`: vertex `i` exists, lists
`j` in its edge set, and `j` names an existing vertex (edges whose target
does not exist are skipped by the traversal). -/
def edgeTo {α : Type} (g : DAG α) (i j : String) : Prop :=
  ∃ v, g.findV i = some v ∧ some j ∈ v.edges ∧ g.hasV j = true

/-- `j` is reachable from `i` along effective edges (in zero or more
steps, between existing vertices). -/
inductive Reach {α : Type} (g : DAG α) : String → String → Prop where
  | refl (i : String) (h : g.hasV i = true) : Reach g i i
  | step {i j k : String} (h : edgeTo g i j) (r : Reach g j k) : Reach g i k

/-- The graph has no directed cycle: no non-empty edge path returns to its
start. -/
def Acyclic {α : Type} (g : DAG α) : Prop :=
  ∀ i j, edgeTo g i j → ¬ Reach g j i

/-- The visited set is closed under effective edges, except that targets
listed in `P` may still be pending. -/
def ClosedExc {α : Type} (g : DAG α) (vis : List String)
    (P : List (Option String)) : Prop :=
  ∀ a ∈ vis, ∀ b, edgeTo g a b → b ∈ vis ∨ some b ∈ P

/-- A graph-building call: `addVertex(id, payload, [])` (no edges) or
`addEdge(from, to)`; raised errors are caught and ignored, leaving the
graph as the call left it. -/
inductive DagOp (α : Type) where
  | addV (i : String) (p : α)
  | addE (f t : String)

def applyOp {α : Type} (g : DAG α) : DagOp α → DAG α
  | .addV i p =>
    match addVertex g i p [] with
    | .ok g2 => g2
    | .error _ => g
  | .addE f t => (addEdge g f t).2

def applyOps {α : Type} (g : DAG α) (ops : List (DagOp α)) : DAG α :=
  ops.foldl applyOp g

end DAG

/-! ## Concrete inputs used by the counterexamples and witnesses -/

namespace DAG

/-- `addVertex` with the raised error caught (scratch helper for building
concrete graphs the way the scenarios do). -/
def addV! {α : Type} (g : DAG α) (i : String) (p : α)
    (edges : List String) : DAG α :=
  match addVertex g i p edges with
  | .ok g2 => g2
  | .error _ => g

/-- A graph built by four `addVertex` calls: `A`(10) depends on `B`(1),
which depends on `C`(0) and `D`(5); payloads are the priorities. -/
def cexG : DAG Int :=
  ((((empty Int).addV! "A" 10 ["B"]).addV! "B" 1 ["C", "D"]).addV!
    "C" 0 []).addV! "D" 5 []

/-- The `getOrdered` comparator: higher payload (priority) first. -/
def cexCmp : Vertex Int → Vertex Int → Int :=
  fun a b => b.payload - a.payload

/-- The stored `B` vertex of `cexG`. -/
def cexB : Vertex Int := ⟨"B", 1, [some "C", some "D"]⟩

/-- The self-cycle injected through `addVertex`'s unvalidated edge list. -/
def cexSelf : DAG Int := (empty Int).addV! "A" 0 ["A"]

/-- Scenario S7: `A`, `B` added, then `addEdge(A, B)`. -/
def gS7 : DAG Int :=
  (addEdge (((empty Int).addV! "A" 0 []).addV! "B" 0 []) "A" "B").2

end DAG

/-! ## Trace measures and auxiliary specification vocabulary -/

/-- Number of `start` transitions begun in a trace. -/
def startsCount (tr : List Ev) : Nat :=
  (tr.filter (fun e => match e with
    | .tBefore _ .start => true
    | _ => false)).length

/-- The requested retry delays of a trace, in order. -/
def waitsOf (tr : List Ev) : List Nat :=
  tr.filterMap (fun e => match e with
    | .waited _ ms => some ms
    | _ => none)

/-- The configuration fields of a task, which no lifecycle operation
changes (only `state`, `attempts`, `result` and `error` are mutable). -/
def SameCfg (t t' : TaskM) : Prop :=
  t'.id = t.id ∧ t'.reliesOn = t.reliesOn ∧ t'.priority = t.priority ∧
  t'.retryLimit = t.retryLimit ∧ t'.backoff = t.backoff ∧
  t'.timeoutMs = t.timeoutMs ∧ t'.work = t.work

/-! ## Concrete tasks and workflows used by the witnesses -/

/-- A work function that always succeeds with `undefined`. -/
def workOk : Nat → List JSVal → AttemptOutcome := fun _ _ => .ok (.undef)

/-- A work function that always throws `E<attempt>`. -/
def workFailAll : Nat → List JSVal → AttemptOutcome :=
  fun k _ => .fail (.err ("E" ++ toString k))

/-- A task currently `running`. -/
def tRun : TaskM :=
  { id := "R", reliesOn := [], priority := 0, retryLimit := 0,
    backoff := 200, timeoutMs := none, work := workOk, state := .running,
    attempts := 0, result := .undef, error := none }

/-- A task already `removed`. -/
def tRem : TaskM := { tRun with id := "M", state := .removed }

/-- A `pending` task with `retryLimit = 2`, `backoff = 100` whose work
always throws. -/
def tC5 : TaskM :=
  { id := "T", reliesOn := [], priority := 0, retryLimit := 2,
    backoff := 100, timeoutMs := none, work := workFailAll,
    state := .pending, attempts := 0, result := .undef, error := none }

/-- A `pending` task `B` relying on `A` (scenario S5's dependent). -/
def tB : TaskM :=
  { id := "B", reliesOn := ["A"], priority := 0, retryLimit := 0,
    backoff := 200, timeoutMs := none, work := workOk, state := .pending,
    attempts := 0, result := .undef, error := none }

/-- An executing workflow holding only the pending task `B`. -/
def wfB : WfM :=
  { id := "w", wstate := .executing, pauseG := false,
    tasks := [("B", tB)],
    dag := ⟨[⟨"B", "B", [some "A"]⟩], true, []⟩,
    processed := [], toRemove := [] }

/-- A paused workflow / an executing workflow (for the idempotence
witnesses). -/
def wfPaused : WfM := { newWf "wp" with wstate := .paused, pauseG := true }

def wfExec : WfM := { newWf "we" with wstate := .executing }

/-- Scenario S6-style workflow: `X` pending, `Y` failed, `Z` pending,
consumed through `try()`. -/
def tX : TaskM := { tB with id := "X", reliesOn := [] }

def tY : TaskM :=
  { tB with
    id := "Y"
    reliesOn := []
    state := .failed
    error := some (.err "bad") }

def tZ : TaskM := { tB with id := "Z", reliesOn := [] }

def wfXYZ : WfM :=
  { id := "w6", wstate := .executing, pauseG := false,
    tasks := [("X", tX), ("Y", tY), ("Z", tZ)],
    dag := ⟨[⟨"X", "X", []⟩, ⟨"Y", "Y", []⟩, ⟨"Z", "Z", []⟩], true, []⟩,
    processed := [], toRemove := [] }

/-- Scenario S5 as a workflow: `A` throws, `B` relies on `A`. -/
def tA5 : TaskM :=
  { tB with
    id := "A"
    reliesOn := []
    work := fun _ _ => .fail (.err "boom") }

def wfS5 : WfM :=
  { id := "w5", wstate := .idle, pauseG := false,
    tasks := [("A", tA5), ("B", tB)],
    dag := ⟨[⟨"A", "A", []⟩, ⟨"B", "B", [some "A"]⟩], true, []⟩,
    processed := [], toRemove := [] }

/-! ## Vocabulary for the abort handler (claim C6) -/

/-- The pending snapshot taken by the `aborted`-enter handler: the ordered
ids whose stored task is observed in state `pending` when the handler
runs. -/
def pendSnap (wf : WfM) : List String :=
  ((((getOrderedM wf).1.filterMap
      (fun i => (storeGet (getOrderedM wf).2 i).map (fun t => (i, t))))
    |>.filter (fun p => p.2.state = .pending)).map (fun p => p.1))

/-- The workflow observed by the `aborted`-enter handler during an
`abort()` from `executing`: the deferred removals are drained and the
state assignment to `aborted` has already happened. -/
def abortedView (wf : WfM) : WfM :=
  { drainRemove wf with wstate := WState.aborted }

/-! ## Vocabulary for the start-ordering claim (C1) -/

/-- The task an event belongs to, if any. -/
def evTask : Ev → Option String
  | .tBefore i _ => some i
  | .tLeave i _ => some i
  | .tEnter i _ => some i
  | .tAfter i _ => some i
  | .workCalled i _ => some i
  | .waited i _ => some i
  | .settled i _ => some i
  | _ => none

/-- Every stored task is keyed by its own id and carries the dependency
list `R` assigns to that id (true of every workflow built through `add`,
which keys the store and the DAG by `task.id`). -/
def StoreOK (wf : WfM) (R : String → List String) : Prop :=
  ∀ p ∈ wf.tasks, (p.2).id = p.1 ∧ (p.2).reliesOn = R p.1

/-- Every settled (memoized) future already has its settlement event in the
trace prefix `pre`. -/
def ProcOK (wf : WfM) (pre : List Ev) : Prop :=
  ∀ d, (lookupProc wf d).isSome = true → ∃ s, Ev.settled d s ∈ pre

/-- The start-ordering property of a trace `tr` emitted after the prefix
`pre`: wherever `tr` contains an entry of task `i` into `running`, every
dependency of `i` (per `R`) has a settlement event strictly earlier. -/
def GoodTr (R : String → List String) (pre tr : List Ev) : Prop :=
  ∀ a i b, tr = a ++ Ev.tEnter i .running :: b →
    ∀ d ∈ R i, ∃ s, Ev.settled d s ∈ pre ++ a

/-- The dependency map of the concrete two-task workflow `wfC1`. -/
def RC1 : String → List String := fun i => if i = "B" then ["A"] else []

/-- An idle workflow whose task `B` relies on the succeeding task `A`
(scenario S1: both run, `B` starts only after `A` settles). -/
def tAC1 : TaskM := { tB with id := "A", reliesOn := [] }

def wfC1 : WfM :=
  { id := "w1", wstate := .idle, pauseG := false,
    tasks := [("A", tAC1), ("B", tB)],
    dag := ⟨[⟨"A", "A", []⟩, ⟨"B", "B", [some "A"]⟩], true, []⟩,
    processed := [], toRemove := [] }

/-- The trace of `processW 3 wfC1` up to (excluding) `B`'s entry into
`running`. -/
def aC1 : List Ev :=
  [.wBefore .begin, .wLeave .idle, .wEnter .executing, .wAfter .begin,
   .tBefore "A" .start, .tLeave "A" .pending, .tEnter "A" .running,
   .tAfter "A" .start, .workCalled "A" 0, .tBefore "A" .succeed,
   .tLeave "A" .running, .tEnter "A" .succeeded, .tAfter "A" .succeed,
   .settled "A" (.fulfilled .undef), .tBefore "B" .start,
   .tLeave "B" .pending]

/-- The rest of that trace, after `B`'s entry into `running`. -/
def bC1 : List Ev :=
  [.tAfter "B" .start, .workCalled "B" 0, .tBefore "B" .succeed,
   .tLeave "B" .running, .tEnter "B" .succeeded, .tAfter "B" .succeed,
   .settled "B" (.fulfilled .undef)]

/-! ## Theorems -/

namespace DAG

/-! ### Basic lemmas about the DAG operations -/

theorem mem_setAdd {β : Type} [DecidableEq β] {l : List β} {x y : β} :
    x ∈ setAdd l y ↔ x ∈ l ∨ x = y := by
  unfold setAdd
  by_cases h : y ∈ l
  · simp only [if_pos h]
    constructor
    · exact fun hx => Or.inl hx
    · rintro (hx | rfl) <;> [exact hx; exact h]
  · simp [if_neg h]

theorem findV_id {α : Type} {g : DAG α} {i : String} {v : Vertex α}
    (h : g.findV i = some v) : v.id = i := by
  have := List.find?_some h
  simpa using this

theorem findV_mem {α : Type} {g : DAG α} {i : String} {v : Vertex α}
    (h : g.findV i = some v) : v ∈ g.vertices :=
  List.mem_of_find?_eq_some h

/-- The dirty flag and the cache do not affect vertex lookup. -/
theorem findV_mk {α : Type} (vs : List (Vertex α)) (d d' : Bool)
    (c c' : List α) (i : String) :
    findV ⟨vs, d, c⟩ i = findV ⟨vs, d', c'⟩ i := rfl

theorem filter_length_mono {β : Type} {p q : β → Bool}
    (h : ∀ x, p x = true → q x = true) (l : List β) :
    (l.filter p).length ≤ (l.filter q).length := by
  induction l with
  | nil => simp
  | cons x xs ih =>
    by_cases hp : p x = true
    · have hq := h x hp
      simp [List.filter_cons, hp, hq]
      omega
    · have hp' : p x = false := by simp at hp; exact hp
      by_cases hq : q x = true <;>
        simp [List.filter_cons, hp', hq] <;> omega

theorem unvisited_mono {α : Type} (g : DAG α) {vis vis' : List String}
    (h : ∀ x, x ∈ vis → x ∈ vis') :
    unvisited g vis' ≤ unvisited g vis := by
  apply filter_length_mono
  intro v hv
  simp only [decide_eq_true_eq] at *
  intro hmem
  exact hv (h _ hmem)

theorem filter_length_strict {β : Type} {p q : β → Bool}
    (hpq : ∀ x, p x = true → q x = true) {v : β} {l : List β}
    (hv : v ∈ l) (hp : p v = false) (hq : q v = true) :
    (l.filter p).length < (l.filter q).length := by
  induction l with
  | nil => cases hv
  | cons x xs ih =>
    rcases List.mem_cons.mp hv with rfl | hv'
    · have hmono := filter_length_mono hpq xs
      simp only [List.filter_cons, hp, hq, if_true, if_false,
        Bool.false_eq_true, List.length_cons]
      omega
    · have hlt := ih hv'
      cases hpx : p x with
      | true =>
        have hqx := hpq x hpx
        simp only [List.filter_cons, hpx, hqx, if_true, List.length_cons]
        omega
      | false =>
        cases hqx : q x with
        | true =>
          simp only [List.filter_cons, hpx, hqx, if_true,
            Bool.false_eq_true, if_false, List.length_cons]
          omega
        | false =>
          simp only [List.filter_cons, hpx, hqx, Bool.false_eq_true,
            if_false]
          exact hlt

theorem unvisited_strict {α : Type} (g : DAG α) {vis : List String}
    {i : String} (hnv : i ∉ vis) {v : Vertex α} (hv : v ∈ g.vertices)
    (hid : v.id = i) :
    unvisited g (vis ++ [i]) < unvisited g vis := by
  refine filter_length_strict ?_ hv ?_ ?_
  · intro x hx
    simp only [decide_eq_true_eq] at hx ⊢
    intro hm
    exact hx (List.mem_append_left _ hm)
  · simp [hid]
  · simpa [hid] using hnv

/-! ### `topoSort` caching (claim C10 support) -/

theorem topoSort_dirty {α : Type} (g : DAG α)
    (c : Option (Vertex α → Vertex α → Int)) :
    (topoSort g c).2.dirty = false := by
  unfold topoSort
  by_cases h : g.dirty = false <;> simp [h]

theorem topoSort_cached_out {α : Type} (g : DAG α)
    (c : Option (Vertex α → Vertex α → Int)) :
    (topoSort g c).2.cached = (topoSort g c).1 := by
  unfold topoSort
  by_cases h : g.dirty = false <;> simp [h]

theorem topoSort_clean {α : Type} (g : DAG α) (h : g.dirty = false)
    (c : Option (Vertex α → Vertex α → Int)) :
    topoSort g c = (g.cached, g) := by
  unfold topoSort
  simp [h]

/-! ### Unfolding lemmas for the traversal -/

theorem dfsList_nil {α : Type}
    (rec : List String → Option String → List (Vertex α) × List String)
    (vis : List String) : dfsList rec vis [] = ([], vis) := rfl

theorem dfsList_cons {α : Type}
    (rec : List String → Option String → List (Vertex α) × List String)
    (vis : List String) (c : Option String) (rest : List (Option String)) :
    dfsList rec vis (c :: rest) =
      ((rec vis c).1 ++ (dfsList rec (rec vis c).2 rest).1,
       (dfsList rec (rec vis c).2 rest).2) := rfl

theorem dfsVisit_none {α : Type} (g : DAG α) (fuel : Nat)
    (vis : List String) : dfsVisit g fuel vis none = ([], vis) := by
  cases fuel <;> rfl

theorem dfsVisit_visited {α : Type} (g : DAG α) (fuel : Nat)
    {vis : List String} {i : String} (h : i ∈ vis) :
    dfsVisit g fuel vis (some i) = ([], vis) := by
  unfold dfsVisit
  simp [h]

theorem dfsVisit_missing {α : Type} (g : DAG α) (fuel : Nat)
    (vis : List String) {i : String} (h : g.findV i = none) :
    dfsVisit g fuel vis (some i) = ([], vis) := by
  unfold dfsVisit
  by_cases hm : i ∈ vis <;> simp [hm, h]

theorem dfsVisit_zero {α : Type} (g : DAG α) (vis : List String)
    (oid : Option String) : dfsVisit g 0 vis oid = ([], vis) := by
  match oid with
  | none => rfl
  | some i =>
    unfold dfsVisit
    by_cases hm : i ∈ vis
    · simp [hm]
    · simp only [hm, if_false]
      match h : g.findV i with
      | none => simp
      | some v => simp

theorem dfsVisit_go {α : Type} (g : DAG α) (fuel : Nat)
    {vis : List String} {i : String} (hm : i ∉ vis) {v : Vertex α}
    (hf : g.findV i = some v) :
    dfsVisit g (fuel + 1) vis (some i) =
      ((dfsList (dfsVisit g fuel) (vis ++ [i])
          ((g.getEdgesV v).map connId)).1 ++ [v],
       (dfsList (dfsVisit g fuel) (vis ++ [i])
          ((g.getEdgesV v).map connId)).2) := by
  unfold dfsVisit
  simp [hm, hf]

/-! ### The visited set grows monotonically -/

theorem dfsList_vis_mono_of {α : Type}
    {rec : List String → Option String → List (Vertex α) × List String}
    (hrec : ∀ vis oid x, x ∈ vis → x ∈ (rec vis oid).2) :
    ∀ (ids : List (Option String)) (vis : List String) (x : String),
      x ∈ vis → x ∈ (dfsList rec vis ids).2 := by
  intro ids
  induction ids with
  | nil => intro vis x hx; simpa [dfsList_nil]
  | cons c rest ih =>
    intro vis x hx
    rw [dfsList_cons]
    exact ih _ _ (hrec _ _ _ hx)

theorem dfsVisit_vis_mono {α : Type} (g : DAG α) :
    ∀ (fuel : Nat) (vis : List String) (oid : Option String) (x : String),
      x ∈ vis → x ∈ (dfsVisit g fuel vis oid).2 := by
  intro fuel
  induction fuel with
  | zero => intro vis oid x hx; simpa [dfsVisit_zero]
  | succ f ih =>
    intro vis oid x hx
    match oid with
    | none => simpa [dfsVisit_none]
    | some i =>
      by_cases hm : i ∈ vis
      · simpa [dfsVisit_visited g _ hm]
      · match hf : g.findV i with
        | none => simpa [dfsVisit_missing g _ _ hf]
        | some v =>
          rw [dfsVisit_go g f hm hf]
          exact dfsList_vis_mono_of ih _ _ _
            (List.mem_append_left _ hx)

theorem dfsList_vis_mono {α : Type} (g : DAG α) (fuel : Nat) :
    ∀ (ids : List (Option String)) (vis : List String) (x : String),
      x ∈ vis → x ∈ (dfsList (dfsVisit g fuel) vis ids).2 :=
  dfsList_vis_mono_of (dfsVisit_vis_mono g fuel)

/-! ### Every newly visited id is the id of a yielded vertex -/

theorem dfsList_vis_sub_of {α : Type}
    {rec : List String → Option String → List (Vertex α) × List String}
    (hrec : ∀ vis oid x, x ∈ (rec vis oid).2 →
      x ∈ vis ∨ ∃ v ∈ (rec vis oid).1, v.id = x) :
    ∀ (ids : List (Option String)) (vis : List String) (x : String),
      x ∈ (dfsList rec vis ids).2 →
      x ∈ vis ∨ ∃ v ∈ (dfsList rec vis ids).1, v.id = x := by
  intro ids
  induction ids with
  | nil => intro vis x hx; left; simpa [dfsList_nil] using hx
  | cons c rest ih =>
    intro vis x hx
    rw [dfsList_cons] at hx ⊢
    rcases ih _ _ hx with hx' | ⟨v, hv, hvid⟩
    · rcases hrec _ _ _ hx' with hx'' | ⟨v, hv, hvid⟩
      · exact Or.inl hx''
      · exact Or.inr ⟨v, List.mem_append_left _ hv, hvid⟩
    · exact Or.inr ⟨v, List.mem_append_right _ hv, hvid⟩

theorem dfsVisit_vis_sub {α : Type} (g : DAG α) :
    ∀ (fuel : Nat) (vis : List String) (oid : Option String) (x : String),
      x ∈ (dfsVisit g fuel vis oid).2 →
      x ∈ vis ∨ ∃ v ∈ (dfsVisit g fuel vis oid).1, v.id = x := by
  intro fuel
  induction fuel with
  | zero => intro vis oid x hx; left; simpa [dfsVisit_zero] using hx
  | succ f ih =>
    intro vis oid x hx
    match oid with
    | none => left; simpa [dfsVisit_none] using hx
    | some i =>
      by_cases hm : i ∈ vis
      · left; simpa [dfsVisit_visited g _ hm] using hx
      · match hf : g.findV i with
        | none => left; simpa [dfsVisit_missing g _ _ hf] using hx
        | some v =>
          rw [dfsVisit_go g f hm hf] at hx ⊢
          rcases dfsList_vis_sub_of ih _ _ _ hx with hx' | ⟨w, hw, hwid⟩
          · rcases List.mem_append.mp hx' with hx'' | hx''
            · exact Or.inl hx''
            · refine Or.inr ⟨v, List.mem_append_right _ (by simp), ?_⟩
              have : x = i := by simpa using hx''
              rw [this, findV_id hf]
          · exact Or.inr ⟨w, List.mem_append_left _ hw, hwid⟩


/-! ### Effective edges versus the traversal's child list -/

theorem edgeTo_hasV {α : Type} {g : DAG α} {a b : String}
    (h : edgeTo g a b) : g.hasV b = true := h.choose_spec.2.2

theorem edgeTo_conns {α : Type} {g : DAG α} {i b : String} {v : Vertex α}
    (hf : g.findV i = some v) :
    edgeTo g i b ↔ some b ∈ (g.getEdgesV v).map connId := by
  constructor
  · rintro ⟨v', hv', hb, hhas⟩
    rw [hf] at hv'
    injection hv' with hv'
    subst hv'
    obtain ⟨w, hw⟩ : ∃ w, g.findV b = some w := by
      unfold hasV at hhas
      cases hfb : g.findV b with
      | none => rw [hfb] at hhas; simp at hhas
      | some w => exact ⟨w, rfl⟩
    refine List.mem_map.mpr ⟨some w, ?_, ?_⟩
    · exact List.mem_map.mpr ⟨some b, hb, by simp [resolveE, hw]⟩
    · simp [connId, findV_id hw]
  · intro hmem
    obtain ⟨ov, hov, hc⟩ := List.mem_map.mp hmem
    obtain ⟨e, hee, hre⟩ := List.mem_map.mp hov
    match ov, hc with
    | some w, hc =>
      have hwb : w.id = b := by simpa [connId] using hc
      obtain ⟨jj, hje, hjw⟩ : ∃ jj, e = some jj ∧ g.findV jj = some w := by
        cases e with
        | none => simp [resolveE] at hre
        | some jj => exact ⟨jj, rfl, by simpa [resolveE] using hre⟩
      have hjb : jj = b := by rw [← hwb, findV_id hjw]
      subst hjb
      exact ⟨v, hf, by rwa [hje] at hee, by simp [hasV, hjw]⟩

/-! ### DFS visits everything reachable (closure invariant) -/

theorem dfsList_closed_of {α : Type} {g : DAG α} {fuel : Nat}
    (hrec : ∀ vis (P : List (Option String)) oid,
      unvisited g vis ≤ fuel → ClosedExc g vis P →
      ClosedExc g (dfsVisit g fuel vis oid).2 P ∧
      (∀ i, oid = some i → g.hasV i = true →
        i ∈ (dfsVisit g fuel vis oid).2)) :
    ∀ (ids : List (Option String)) (vis : List String)
      (P : List (Option String)),
      unvisited g vis ≤ fuel → ClosedExc g vis (P ++ ids) →
      ClosedExc g (dfsList (dfsVisit g fuel) vis ids).2 P ∧
      (∀ j, some j ∈ ids → g.hasV j = true →
        j ∈ (dfsList (dfsVisit g fuel) vis ids).2) := by
  intro ids
  induction ids with
  | nil =>
    intro vis P hfu hcl
    rw [dfsList_nil]
    refine ⟨by simpa using hcl, ?_⟩
    intro j hj
    cases hj
  | cons c rest ih =>
    intro vis P hfu hcl
    rw [dfsList_cons]
    have h1 := hrec vis (P ++ c :: rest) c hfu hcl
    have hmono : ∀ x ∈ vis, x ∈ (dfsVisit g fuel vis c).2 :=
      fun x hx => dfsVisit_vis_mono g fuel vis c x hx
    have hfu2 : unvisited g (dfsVisit g fuel vis c).2 ≤ fuel :=
      le_trans (unvisited_mono g hmono) hfu
    have hcl2 : ClosedExc g (dfsVisit g fuel vis c).2 (P ++ rest) := by
      intro a ha b hab
      rcases h1.1 a ha b hab with hb | hb
      · exact Or.inl hb
      · rcases List.mem_append.mp hb with hb | hb
        · exact Or.inr (List.mem_append_left _ hb)
        · rcases List.mem_cons.mp hb with hb | hb
          · exact Or.inl (h1.2 b hb.symm (edgeTo_hasV hab))
          · exact Or.inr (List.mem_append_right _ hb)
    have h2 := ih (dfsVisit g fuel vis c).2 P hfu2 hcl2
    refine ⟨h2.1, ?_⟩
    intro j hj hhas
    rcases List.mem_cons.mp hj with hj | hj
    · have hjv : j ∈ (dfsVisit g fuel vis c).2 := h1.2 j hj.symm hhas
      exact dfsList_vis_mono_of (dfsVisit_vis_mono g fuel) _ _ _ hjv
    · exact h2.2 j hj hhas

theorem dfsVisit_closed {α : Type} (g : DAG α) :
    ∀ (fuel : Nat) (vis : List String) (P : List (Option String))
      (oid : Option String),
      unvisited g vis ≤ fuel → ClosedExc g vis P →
      ClosedExc g (dfsVisit g fuel vis oid).2 P ∧
      (∀ i, oid = some i → g.hasV i = true →
        i ∈ (dfsVisit g fuel vis oid).2) := by
  intro fuel
  induction fuel with
  | zero =>
    intro vis P oid hfu hcl
    rw [dfsVisit_zero]
    refine ⟨hcl, ?_⟩
    rintro i rfl hhas
    by_cases hm : i ∈ vis
    · exact hm
    · exfalso
      obtain ⟨v, hv⟩ : ∃ v, g.findV i = some v := by
        unfold hasV at hhas
        cases hf : g.findV i with
        | none => rw [hf] at hhas; simp at hhas
        | some v => exact ⟨v, rfl⟩
      have := unvisited_strict g hm (findV_mem hv) (findV_id hv)
      omega
  | succ f ih =>
    intro vis P oid hfu hcl
    match oid with
    | none =>
      rw [dfsVisit_none]
      exact ⟨hcl, by rintro i ⟨⟩⟩
    | some i =>
      by_cases hm : i ∈ vis
      · rw [dfsVisit_visited g _ hm]
        exact ⟨hcl, by rintro j hji hhas; injection hji with h; exact h ▸ hm⟩
      · match hf : g.findV i with
        | none =>
          rw [dfsVisit_missing g _ _ hf]
          refine ⟨hcl, ?_⟩
          rintro j hji hhas
          injection hji with h
          subst h
          unfold hasV at hhas
          rw [hf] at hhas
          simp at hhas
        | some v =>
          rw [dfsVisit_go g f hm hf]
          have hfu2 : unvisited g (vis ++ [i]) ≤ f := by
            have := unvisited_strict g hm (findV_mem hf) (findV_id hf)
            omega
          have hcl2 : ClosedExc g (vis ++ [i])
              (P ++ (g.getEdgesV v).map connId) := by
            intro a ha b hab
            rcases List.mem_append.mp ha with ha | ha
            · rcases hcl a ha b hab with hb | hb
              · exact Or.inl (List.mem_append_left _ hb)
              · exact Or.inr (List.mem_append_left _ hb)
            · have hai : a = i := by simpa using ha
              subst hai
              exact Or.inr (List.mem_append_right _
                ((edgeTo_conns hf).mp hab))
          have h2 := dfsList_closed_of (fun v P o => ih v P o) _ _ P
            hfu2 hcl2
          refine ⟨h2.1, ?_⟩
          rintro j hji _
          injection hji with h
          subst h
          exact dfsList_vis_mono_of (dfsVisit_vis_mono g f) _ _ _
            (List.mem_append_right _ (by simp))

/-! ### Reachability lemmas -/

theorem Reach.src_has {α : Type} {g : DAG α} {i j : String}
    (r : Reach g i j) : g.hasV i = true := by
  cases r with
  | refl _ h => exact h
  | step h _ =>
    obtain ⟨v, hv, -, -⟩ := h
    simp [hasV, hv]

theorem Reach.trans {α : Type} {g : DAG α} {i j k : String}
    (r1 : Reach g i j) (r2 : Reach g j k) : Reach g i k := by
  induction r1 with
  | refl _ _ => exact r2
  | step h _ ih => exact Reach.step h (ih r2)

theorem reach_in_closed {α : Type} {g : DAG α} {vis : List String}
    (hcl : ClosedExc g vis []) {i j : String} (hi : i ∈ vis)
    (r : Reach g i j) : j ∈ vis := by
  induction r with
  | refl _ _ => exact hi
  | step h _ ih =>
    rcases hcl _ hi _ h with hb | hb
    · exact ih hb
    · cases hb

/-- DFS completeness: the cycle test of `addEdge` detects every `fromId`
reachable from `toId`. -/
theorem reachCheck_complete {α : Type} {g : DAG α} {f t : String}
    (r : Reach g t f) : reachCheck g f t = true := by
  unfold reachCheck
  have hfu : unvisited g [] ≤ g.vertices.length := by
    unfold unvisited
    exact List.length_filter_le _ _
  have hcl : ClosedExc g [] [] := by rintro a ⟨⟩
  have h := dfsVisit_closed g g.vertices.length [] [] (some t) hfu hcl
  have ht : t ∈ (dfsVisit g g.vertices.length [] (some t)).2 :=
    h.2 t rfl r.src_has
  have hf : f ∈ (dfsVisit g g.vertices.length [] (some t)).2 :=
    reach_in_closed h.1 ht r
  rcases dfsVisit_vis_sub g g.vertices.length [] (some t) f hf with h0 | hv
  · cases h0
  · obtain ⟨v, hv, hvid⟩ := hv
    exact List.any_eq_true.mpr ⟨v, hv, by simp [hvid]⟩


/-! ### Vertex lookup after an update / append -/

theorem find_update {α : Type} (l : List (Vertex α)) (i : String)
    (v' : Vertex α) (hid : v'.id = i) (j : String) :
    (l.map (fun v => if v.id = i then v' else v)).find?
        (fun v => v.id = j) =
      if j = i then (l.find? (fun v => v.id = i)).map (fun _ => v')
      else l.find? (fun v => v.id = j) := by
  induction l with
  | nil => by_cases h : j = i <;> simp [h]
  | cons w ws ih =>
    by_cases hw : w.id = i
    · by_cases hj : j = i
      · subst hj
        simp [List.find?_cons, hw, hid]
      · have hij : ¬ (i = j) := fun h => hj h.symm
        simp [List.find?_cons, hw, hid, hj, ih, hij,
          show ¬ (v'.id = j) by rw [hid]; exact hij,
          show ¬ (w.id = j) by rw [hw]; exact hij]
    · by_cases hj2 : w.id = j
      · have hji : ¬ (j = i) := fun h => hw (hj2.trans h)
        simp [List.find?_cons, hw, hj2, hji]
      · simp [List.find?_cons, hw, hj2, ih]

theorem findV_updateV {α : Type} (g : DAG α) (i : String) (v' : Vertex α)
    (hid : v'.id = i) (j : String) :
    findV (updateV g i v') j =
      if j = i then (g.findV i).map (fun _ => v') else g.findV j := by
  unfold findV updateV
  exact find_update g.vertices i v' hid j

theorem find_append {α : Type} (l : List (Vertex α)) (nv : Vertex α)
    (j : String) :
    (l ++ [nv]).find? (fun v => v.id = j) =
      match l.find? (fun v => v.id = j) with
      | some v => some v
      | none => if nv.id = j then some nv else none := by
  induction l with
  | nil => by_cases h : nv.id = j <;> simp [List.find?_cons, h]
  | cons w ws ih =>
    by_cases hw : w.id = j <;> simp [List.find?_cons, hw, ih]

/-! ### Adding an edge preserves acyclicity -/

theorem addEdge_self {α : Type} (g : DAG α) (f : String) :
    addEdge g f f = (some cycleMsg, g) := by
  unfold addEdge
  simp

theorem addEdge_reach {α : Type} {g : DAG α} {f t : String}
    (r : Reach g t f) : (addEdge g f t).1 = some cycleMsg := by
  unfold addEdge
  by_cases hft : f = t
  · simp [hft]
  · simp [hft, reachCheck_complete r]

theorem addEdge_err_frame {α : Type} {g : DAG α} {f t : String} {m : String}
    (h : (addEdge g f t).1 = some m) : (addEdge g f t).2 = g := by
  unfold addEdge at h ⊢
  by_cases hft : f = t
  · simp [hft]
  · by_cases hrc : reachCheck g f t
    · simp [hft, hrc]
    · exfalso
      simp only [hft, hrc, if_false, Bool.false_eq_true] at h
      match hf : g.findV f with
      | none => rw [hf] at h; simp at h
      | some v =>
        rw [hf] at h
        by_cases ht : g.hasV t <;> simp [ht] at h

/-- The mutated graph of a successful `addEdge` when both endpoints exist. -/
theorem addEdge_ok_graph {α : Type} {g : DAG α} {f t : String}
    {v : Vertex α} (hft : f ≠ t) (hrc : reachCheck g f t = false)
    (hf : g.findV f = some v) (ht : g.hasV t = true) :
    addEdge g f t = (none,
      { (g.updateV f { v with edges := setAdd v.edges (some t) })
        with dirty := true }) := by
  unfold addEdge
  simp [hft, hrc, hf, ht]

theorem findV_addEdge_graph {α : Type} {g : DAG α} {f t : String}
    {v : Vertex α} (hf : g.findV f = some v) (j : String) :
    findV ({ (g.updateV f { v with edges := setAdd v.edges (some t) })
        with dirty := true }) j =
      if j = f then some { v with edges := setAdd v.edges (some t) }
      else g.findV j := by
  have hid : v.id = f := findV_id hf
  have h := findV_updateV g f { v with edges := setAdd v.edges (some t) }
    hid j
  have hsame : findV ({ (g.updateV f
      { v with edges := setAdd v.edges (some t) }) with dirty := true }) j
      = findV (g.updateV f { v with edges := setAdd v.edges (some t) }) j :=
    rfl
  rw [hsame, h, hf]
  by_cases hj : j = f <;> simp [hj]

theorem hasV_addEdge_graph {α : Type} {g : DAG α} {f t : String}
    {v : Vertex α} (hf : g.findV f = some v) (j : String) :
    hasV ({ (g.updateV f { v with edges := setAdd v.edges (some t) })
        with dirty := true }) j = g.hasV j := by
  unfold hasV
  rw [findV_addEdge_graph hf]
  by_cases hj : j = f <;> simp [hj, hf]

theorem edgeTo_addEdge_iff {α : Type} {g : DAG α} {f t : String}
    {v : Vertex α} (hf : g.findV f = some v) (ht : g.hasV t = true)
    (a b : String) :
    edgeTo ({ (g.updateV f { v with edges := setAdd v.edges (some t) })
        with dirty := true }) a b ↔
      edgeTo g a b ∨ (a = f ∧ b = t) := by
  constructor
  · rintro ⟨w, hw, hb, hbh⟩
    rw [findV_addEdge_graph hf] at hw
    rw [hasV_addEdge_graph hf] at hbh
    by_cases ha : a = f
    · rw [if_pos ha] at hw
      injection hw with hw
      subst hw
      simp only at hb
      rcases mem_setAdd.mp hb with hb | hb
      · exact Or.inl ⟨v, ha ▸ hf, hb, hbh⟩
      · injection hb with hb
        exact Or.inr ⟨ha, hb⟩
    · rw [if_neg ha] at hw
      exact Or.inl ⟨w, hw, hb, hbh⟩
  · rintro (⟨w, hw, hb, hbh⟩ | ⟨ha, hb⟩)
    · by_cases ha : a = f
      · refine ⟨{ v with edges := setAdd v.edges (some t) },
          by rw [findV_addEdge_graph hf, if_pos ha],
          ?_, by rw [hasV_addEdge_graph hf]; exact hbh⟩
        have hvw : w = v := by
          have h2 : g.findV f = some w := ha ▸ hw
          rw [hf] at h2
          exact (Option.some.inj h2).symm
        subst hvw
        simpa using mem_setAdd.mpr (Or.inl hb)
      · exact ⟨w, by rw [findV_addEdge_graph hf, if_neg ha]; exact hw,
          hb, by rw [hasV_addEdge_graph hf]; exact hbh⟩
    · refine ⟨{ v with edges := setAdd v.edges (some t) },
        by rw [findV_addEdge_graph hf, if_pos ha], ?_, ?_⟩
      · rw [hb]
        simpa using mem_setAdd.mpr (Or.inr rfl)
      · rw [hasV_addEdge_graph hf, hb]
        exact ht

theorem reach_addEdge {α : Type} {g : DAG α} {f t : String}
    {v : Vertex α} (hf : g.findV f = some v) (ht : g.hasV t = true)
    {a b : String}
    (hr : Reach ({ (g.updateV f
        { v with edges := setAdd v.edges (some t) })
        with dirty := true }) a b) :
    Reach g a b ∨ (Reach g a f ∧ Reach g t b) := by
  induction hr with
  | refl c hc =>
    rw [hasV_addEdge_graph hf] at hc
    exact Or.inl (Reach.refl c hc)
  | @step i0 j0 k0 he2 hr2 ih =>
    rcases (edgeTo_addEdge_iff hf ht _ _).mp he2 with he | ⟨ha, hb⟩
    · rcases ih with hrr | ⟨hr1, hr2⟩
      · exact Or.inl (Reach.step he hrr)
      · exact Or.inr ⟨Reach.step he hr1, hr2⟩
    · have hsrc : Reach g i0 f := by
        rw [ha]
        exact Reach.refl f (by simp [hasV, hf])
      rcases ih with hrr | ⟨hr1, hr2⟩
      · refine Or.inr ⟨hsrc, ?_⟩
        rw [← hb]
        exact hrr
      · exact Or.inr ⟨hsrc, hr2⟩

theorem acyclic_addEdge {α : Type} {g : DAG α} (hac : Acyclic g)
    (f t : String) : Acyclic (addEdge g f t).2 := by
  by_cases hft : f = t
  · subst hft
    rw [addEdge_self]
    exact hac
  · by_cases hrc : reachCheck g f t
    · have : addEdge g f t = (some cycleMsg, g) := by
        unfold addEdge
        simp [hft, hrc]
      rw [this]
      exact hac
    · match hfv : g.findV f with
      | none =>
        have : (addEdge g f t).2 = g := by
          unfold addEdge
          simp [hft, hrc, hfv]
        rw [this]
        exact hac
      | some v =>
        by_cases ht : g.hasV t
        · rw [addEdge_ok_graph hft (by simpa using hrc) hfv ht]
          have hnr : ¬ Reach g t f := fun r => by
            rw [reachCheck_complete r] at hrc
            exact hrc rfl
          intro i j hij hji
          rcases (edgeTo_addEdge_iff hfv ht _ _).mp hij with he | ⟨rfl, rfl⟩
          · rcases reach_addEdge hfv ht hji with hr | ⟨hr1, hr2⟩
            · exact hac _ _ he hr
            · exact hnr (Reach.trans hr2 (Reach.step he hr1))
          · rcases reach_addEdge hfv ht hji with hr | ⟨hr1, hr2⟩
            · exact hnr hr
            · exact hnr hr2
        · have : (addEdge g f t).2 = g := by
            unfold addEdge
            simp [hft, hrc, hfv, ht]
          rw [this]
          exact hac

/-! ### Adding an edgeless vertex preserves acyclicity -/

theorem findV_addVertex {α : Type} {g : DAG α} {i : String} {p : α}
    {edges : List String} {g2 : DAG α}
    (h : addVertex g i p edges = .ok g2) (j : String) :
    g2.findV j =
      match g.findV j with
      | some v => some v
      | none => if i = j then some ⟨i, p, setOfList (edges.map some)⟩
        else none := by
  unfold addVertex at h
  by_cases hh : g.hasV i
  · simp [hh] at h
  · simp only [hh, Bool.false_eq_true, if_false, Except.ok.injEq] at h
    subst h
    unfold findV
    simp only
    rw [find_append]

theorem acyclic_addVertex_nil {α : Type} {g : DAG α} (hac : Acyclic g)
    {i : String} {p : α} {g2 : DAG α}
    (h : addVertex g i p [] = .ok g2) : Acyclic g2 := by
  have hnv : g.hasV i = false := by
    unfold addVertex at h
    by_cases hh : g.hasV i
    · simp [hh] at h
    · simpa using hh
  have hfind := findV_addVertex h
  have hnew : g2.findV i = some ⟨i, p, []⟩ := by
    rw [hfind i]
    have : g.findV i = none := by
      unfold hasV at hnv
      cases hf : g.findV i with
      | none => rfl
      | some v => rw [hf] at hnv; simp at hnv
    rw [this]
    simp [setOfList]
  -- no effective edge leaves the new vertex
  have hnoedge : ∀ b, ¬ edgeTo g2 i b := by
    rintro b ⟨w, hw, hb, -⟩
    rw [hnew] at hw
    injection hw with hw
    subst hw
    simp at hb
  -- an effective edge of `g2` between old vertices is an edge of `g`
  have hedge : ∀ a b, a ≠ i → edgeTo g2 a b → b ≠ i → edgeTo g a b := by
    rintro a b ha ⟨w, hw, hb, hbh⟩ hbne
    rw [hfind a] at hw
    have hfa : g.findV a = some w := by
      cases hga : g.findV a with
      | some vv =>
        rw [hga] at hw
        exact hw
      | none =>
        rw [hga] at hw
        simp only at hw
        by_cases hia : i = a
        · exact absurd hia.symm ha
        · rw [if_neg hia] at hw; cases hw
    refine ⟨w, hfa, hb, ?_⟩
    unfold hasV at hbh ⊢
    rw [hfind b] at hbh
    cases hgb : g.findV b with
    | some v => simp [hgb]
    | none =>
      rw [hgb] at hbh
      simp only at hbh
      by_cases hib : i = b
      · exact absurd hib.symm hbne
      · rw [if_neg hib] at hbh; simp at hbh
  -- anything reachable from the new vertex is the new vertex itself
  have hreach_i : ∀ a b, Reach g2 a b → a = i → b = i := by
    intro a b hr
    induction hr with
    | refl c hc => intro hh; exact hh
    | @step a' j k hst hr2 ihr =>
      intro ha
      subst ha
      exact absurd hst (hnoedge _)
  -- reachability from an old vertex to an old vertex stays in `g`
  have hreach : ∀ a b, Reach g2 a b → b ≠ i → a ≠ i ∧ Reach g a b := by
    intro a b hr
    induction hr with
    | refl c hc =>
      intro hbne
      refine ⟨hbne, Reach.refl c ?_⟩
      unfold hasV at hc ⊢
      rw [hfind c] at hc
      cases hgc : g.findV c with
      | some v => simp [hgc]
      | none =>
        rw [hgc] at hc
        simp only at hc
        by_cases hic : i = c
        · exact absurd hic.symm hbne
        · rw [if_neg hic] at hc; simp at hc
    | @step a' j k hst hr2 ihr =>
      intro hbne
      have hj : j ≠ i := fun hji => hbne (hreach_i j k hr2 hji)
      have hrest := ihr hbne
      have ha : a' ≠ i := fun hai => absurd (hai ▸ hst) (hnoedge _)
      exact ⟨ha, Reach.step (hedge _ _ ha hst hj) hrest.2⟩
  intro a b hab hba
  by_cases hai : a = i
  · subst hai
    exact hnoedge _ hab
  · rcases hreach b a hba hai with ⟨hbi, hr⟩
    exact hac a b (hedge _ _ hai hab hbi) hr

theorem acyclic_empty (α : Type) : Acyclic (empty α) := by
  rintro i j ⟨v, hv, -, -⟩ _
  cases hv

theorem acyclic_applyOp {α : Type} {g : DAG α} (hac : Acyclic g)
    (op : DagOp α) : Acyclic (applyOp g op) := by
  cases op with
  | addV i p =>
    have heq : applyOp g (DagOp.addV i p) =
        match addVertex g i p [] with
        | .ok g2 => g2
        | .error _ => g := rfl
    rw [heq]
    cases h : addVertex g i p [] with
    | ok g2 => exact acyclic_addVertex_nil hac h
    | error m => exact hac
  | addE f t => exact acyclic_addEdge hac f t

theorem acyclic_applyOps {α : Type} (ops : List (DagOp α)) :
    Acyclic (applyOps (empty α) ops) := by
  suffices h : ∀ (g : DAG α), Acyclic g → Acyclic (applyOps g ops) from
    h _ (acyclic_empty α)
  induction ops with
  | nil => intro g hg; exact hg
  | cons op rest ih =>
    intro g hg
    exact ih _ (acyclic_applyOp hg op)


/-! ### Frame properties of `dfsRoot` and `topoSort` (claim C8 support) -/

theorem dfsRoot_none_graph {α : Type} (g : DAG α) (fuel : Nat)
    (vis : List String) (oid : Option String) :
    (dfsRoot g fuel vis oid none).2.1 = g := rfl

theorem dfsRoot_cmp_visited {α : Type} (g : DAG α) (fuel : Nat)
    {vis : List String} {i : String} (h : i ∈ vis)
    (c : Vertex α → Vertex α → Int) :
    dfsRoot g fuel vis (some i) (some c) = ([], g, vis) := by
  unfold dfsRoot
  simp [h]

theorem dfsRoot_cmp_missing {α : Type} (g : DAG α) (fuel : Nat)
    (vis : List String) {i : String} (h : g.findV i = none)
    (c : Vertex α → Vertex α → Int) :
    dfsRoot g fuel vis (some i) (some c) = ([], g, vis) := by
  unfold dfsRoot
  by_cases hm : i ∈ vis <;> simp [hm, h]

/-- The rewritten edge set of a comparator-visited root: resolved edges,
stably sorted (`undefined` last), re-added to the cleared `Set` as
`conn?.id`. -/
def rewrittenEdges {α : Type} (g : DAG α) (v : Vertex α)
    (c : Vertex α → Vertex α → Int) : List (Option String) :=
  ((jsSortOpt c (g.getEdgesV v)).map connId).foldl setAdd []

theorem dfsRoot_cmp_graph {α : Type} (g : DAG α) (fuel : Nat)
    {vis : List String} {i : String} (hm : i ∉ vis) {v : Vertex α}
    (hf : g.findV i = some v) (c : Vertex α → Vertex α → Int) :
    (dfsRoot g fuel vis (some i) (some c)).2.1 =
      g.updateV i { v with edges := rewrittenEdges g v c } := by
  unfold dfsRoot rewrittenEdges
  simp [hm, hf]

theorem dfsRoot_cmp_findV {α : Type} (g : DAG α) (fuel : Nat)
    {vis : List String} {i : String} (hm : i ∉ vis) {v : Vertex α}
    (hf : g.findV i = some v) (c : Vertex α → Vertex α → Int) :
    (∀ j, j ≠ i →
      ((dfsRoot g fuel vis (some i) (some c)).2.1).findV j = g.findV j) ∧
    ((dfsRoot g fuel vis (some i) (some c)).2.1).findV i =
      some { v with edges := rewrittenEdges g v c } := by
  rw [dfsRoot_cmp_graph g fuel hm hf c]
  have hid : v.id = i := findV_id hf
  constructor
  · intro j hj
    rw [findV_updateV g i { v with edges := rewrittenEdges g v c } hid j,
      if_neg hj]
  · rw [findV_updateV g i { v with edges := rewrittenEdges g v c } hid i,
      if_pos rfl, hf]
    rfl

theorem topoStep_none_graph {α : Type}
    (acc : List (Vertex α) × DAG α × List String) (v : Vertex α) :
    (topoStep none acc v).2.1 = acc.2.1 := by
  unfold topoStep
  by_cases h : v.id ∈ acc.2.2 <;> simp [h, dfsRoot_none_graph]

theorem topoSort_none_vertices {α : Type} (g : DAG α) :
    (topoSort g none).2.vertices = g.vertices := by
  unfold topoSort
  by_cases h : g.dirty = false
  · simp [h]
  · simp only [h, if_false, Bool.false_eq_true]
    have hfold : ∀ (l : List (Vertex α))
        (acc : List (Vertex α) × DAG α × List String),
        (l.foldl (topoStep none) acc).2.1 = acc.2.1 := by
      intro l
      induction l with
      | nil => intro acc; rfl
      | cons w ws ih =>
        intro acc
        rw [List.foldl_cons, ih, topoStep_none_graph]
    simp [hfold]

end DAG

/-! ### Claims C3, C8, C9, C10 -/

open DAG in
/-- C3 counterexample: the claim quantifies over every sequence of
`addVertex` and `addEdge` calls, but `addVertex` stores its edge list with
no cycle check, so a single call `addVertex("A", p, ["A"])` already builds
a graph with a directed cycle. -/
theorem claim_C3_cex : ¬ Acyclic cexSelf := by
  intro h
  refine h "A" "A" ⟨⟨"A", 0, [some "A"]⟩, by decide, by decide, by decide⟩
    (Reach.refl "A" (by decide))

open DAG in
/-- C3 (amended): `addEdge` raises `CycleDetected` for a self-edge and for
any edge `(from, to)` with `from` reachable from `to`; a failed `addEdge`
leaves the DAG unchanged; and any sequence of `addVertex` calls with
*empty* edge lists and `addEdge` calls yields an acyclic graph.  (The
original claim, over `addVertex` with arbitrary edge lists, is refuted by
`claim_C3_cex`: `addVertex` performs no cycle check on its edge list.) -/
theorem claim_C3_amended {α : Type} :
    (∀ (g : DAG α) f, (addEdge g f f).1 = some cycleMsg) ∧
    (∀ (g : DAG α) f t, Reach g t f → (addEdge g f t).1 = some cycleMsg) ∧
    (∀ (g : DAG α) f t m, (addEdge g f t).1 = some m →
      (addEdge g f t).2 = g) ∧
    (∀ ops : List (DagOp α), Acyclic (applyOps (empty α) ops)) := by
  refine ⟨?_, ?_, ?_, acyclic_applyOps⟩
  · intro g f
    rw [addEdge_self]
  · intro g f t r
    exact addEdge_reach r
  · intro g f t m h
    exact addEdge_err_frame h

open DAG in
/-- Witness for C3 at scenario S7: after `add A`, `add B`, `addEdge(A,B)`,
the call `addEdge(B,A)` raises `CycleDetected` and leaves the graph
unchanged. -/
theorem claim_C3_witness :
    (addEdge gS7 "B" "A").1 = some cycleMsg ∧
    (addEdge gS7 "B" "A").2 = gS7 ∧
    (addEdge gS7 "B" "B").1 = some cycleMsg := by
  have hreach : Reach gS7 "A" "B" := by
    refine Reach.step (j := "B")
      ⟨⟨"A", 0, [some "B"]⟩, by decide, by decide, by decide⟩
      (Reach.refl "B" (by decide))
  refine ⟨(claim_C3_amended (α := Int)).2.1 gS7 "B" "A" hreach, ?_, ?_⟩
  · exact (claim_C3_amended (α := Int)).2.2.1 gS7 "B" "A" cycleMsg
      ((claim_C3_amended (α := Int)).2.1 gS7 "B" "A" hreach)
  · exact (claim_C3_amended (α := Int)).1 gS7 "B"

open DAG in
/-- C8 counterexample: in `topoSort` under the priority comparator on
`cexG`, vertex `B` *is* visited (its payload `1` is yielded), its edge set
in comparator order would be `[D, C]`, yet its stored edge set remains
`[C, D]` — the comparator is applied only at traversal roots, not at every
visited vertex (the recursive `#dfsFrom` call passes no comparator). -/
theorem claim_C8_cex :
    (topoSort cexG (some cexCmp)).1 = [0, 5, 1, 10] ∧
    ((topoSort cexG (some cexCmp)).2.findV "B").map Vertex.edges =
      some [some "C", some "D"] ∧
    (jsSortOpt cexCmp (DAG.getEdgesV cexG cexB)).map connId =
      [some "D", some "C"] := by
  refine ⟨by decide, by decide, by decide⟩

open DAG in
/-- C8 (amended): with a null comparator `topoSort` leaves every stored
edge set untouched; with a comparator, a traversal rooted at an unvisited
existing vertex rewrites exactly that root's edge set (cleared and
re-filled in comparator order, `rewrittenEdges`), every other vertex's
lookup is unchanged, and the recursive descent (`dfsVisit`, the
no-comparator `#dfsFrom`) never touches the graph. -/
theorem claim_C8_amended {α : Type} (g : DAG α) :
    ((topoSort g none).2.vertices = g.vertices) ∧
    (∀ (fuel : Nat) (vis : List String) (i : String)
      (c : Vertex α → Vertex α → Int) (v : Vertex α),
      i ∉ vis → g.findV i = some v →
      (∀ j, j ≠ i →
        ((dfsRoot g fuel vis (some i) (some c)).2.1).findV j = g.findV j) ∧
      ((dfsRoot g fuel vis (some i) (some c)).2.1).findV i =
        some { v with edges := rewrittenEdges g v c }) ∧
    (∀ (fuel : Nat) (vis : List String) (oid : Option String),
      (dfsRoot g fuel vis oid none).2.1 = g) := by
  refine ⟨topoSort_none_vertices g, ?_, fun fuel vis oid => rfl⟩
  intro fuel vis i c v hm hf
  exact dfsRoot_cmp_findV g fuel hm hf c

open DAG in
/-- Witness for C8 on the concrete graph `cexG`, rooted at `B`. -/
theorem claim_C8_witness :
    ((dfsRoot cexG 4 [] (some "B") (some cexCmp)).2.1).findV "B" =
      some { cexB with edges := rewrittenEdges cexG cexB cexCmp } ∧
    ((dfsRoot cexG 4 [] (some "B") (some cexCmp)).2.1).findV "A" =
      cexG.findV "A" := by
  have h := (claim_C8_amended cexG).2.1 4 [] "B" cexCmp cexB
    (by decide) (by decide)
  exact ⟨h.2, h.1 "A" (by decide)⟩

open DAG in
/-- C10: when no mutation has intervened (`#dirty` is false after any
`topoSort`), a second `topoSort` returns the cached ordering and graph
unchanged, regardless of its comparator: `topoSort(c2)` right after
`topoSort(c1)` returns the `c1`-ordered result. -/
theorem claim_C10 {α : Type} (g : DAG α)
    (c1 c2 : Option (Vertex α → Vertex α → Int)) :
    topoSort (topoSort g c1).2 c2 = ((topoSort g c1).1, (topoSort g c1).2)
    := by
  rw [topoSort_clean _ (topoSort_dirty g c1) c2, topoSort_cached_out]

/-! ### Association-list lemmas (the JS `Map`s) -/

theorem find_pair_set {β : Type} (l : List (String × β)) (i : String)
    (x : β) (j : String) :
    (l.map (fun p => if p.1 = i then (i, x) else p)).find?
        (fun p => p.1 = j) =
      if j = i then (l.find? (fun p => p.1 = i)).map (fun _ => (i, x))
      else l.find? (fun p => p.1 = j) := by
  induction l with
  | nil => by_cases h : j = i <;> simp [h]
  | cons q qs ih =>
    by_cases hq : q.1 = i
    · by_cases hj : j = i
      · subst hj
        simp [List.find?_cons, hq]
      · have hij : ¬ (i = j) := fun h => hj h.symm
        have hqj : ¬ (q.1 = j) := by rw [hq]; exact hij
        simp [List.find?_cons, hq, hj, ih, hij, hqj]
    · by_cases hj2 : q.1 = j
      · have hji : ¬ (j = i) := fun h => hq (hj2.trans h)
        simp [List.find?_cons, hq, hj2, hji]
      · simp [List.find?_cons, hq, hj2, ih]

theorem find_pair_append {β : Type} (l : List (String × β))
    (q : String × β) (j : String) :
    (l ++ [q]).find? (fun p => p.1 = j) =
      match l.find? (fun p => p.1 = j) with
      | some p => some p
      | none => if q.1 = j then some q else none := by
  induction l with
  | nil => by_cases h : q.1 = j <;> simp [List.find?_cons, h]
  | cons w ws ih =>
    by_cases hw : w.1 = j <;> simp [List.find?_cons, hw, ih]

theorem storeGet_storeSet_ne (wf : WfM) (i : String) (t : TaskM)
    {j : String} (h : j ≠ i) :
    storeGet (storeSet wf i t) j = storeGet wf j := by
  unfold storeGet storeSet
  simp only
  rw [find_pair_set wf.tasks i t j, if_neg h]

theorem storeGet_storeSet_self (wf : WfM) (i : String) (t : TaskM)
    (h : (storeGet wf i).isSome) :
    storeGet (storeSet wf i t) i = some t := by
  unfold storeGet storeSet
  unfold storeGet at h
  simp only
  rw [find_pair_set wf.tasks i t i, if_pos rfl]
  cases hf : wf.tasks.find? (fun p => p.1 = i) with
  | none => rw [hf] at h; simp at h
  | some p => simp

theorem find_procSet_self (l : List (String × SettledV)) (i : String)
    (v : SettledV) :
    (procSet l i v).find? (fun p => p.1 = i) = some (i, v) := by
  unfold procSet
  by_cases h : (l.find? (fun p => p.1 = i)).isSome
  · rw [if_pos h, find_pair_set l i v i, if_pos rfl]
    cases hf : l.find? (fun p => p.1 = i) with
    | none => rw [hf] at h; simp at h
    | some p => simp
  · rw [if_neg h, find_pair_append]
    cases hf : l.find? (fun p => p.1 = i) with
    | none => simp
    | some p => rw [hf] at h; simp at h

theorem find_procSet_ne (l : List (String × SettledV)) (i : String)
    (v : SettledV) {j : String} (h : j ≠ i) :
    (procSet l i v).find? (fun p => p.1 = j) =
      l.find? (fun p => p.1 = j) := by
  unfold procSet
  by_cases hs : (l.find? (fun p => p.1 = i)).isSome
  · rw [if_pos hs, find_pair_set l i v j, if_neg h]
  · rw [if_neg hs, find_pair_append]
    cases hf : l.find? (fun p => p.1 = j) with
    | none => simp [show ¬ (i = j) from fun hh => h hh.symm]
    | some p => simp

/-! ### `taskInvoke` on each transition -/

theorem taskInvoke_start {t : TaskM} (h : t.state = .pending) :
    taskInvoke t .start = .ok ({ t with state := .running, error := none },
      [.tBefore t.id .start, .tLeave t.id t.state,
       .tEnter t.id .running, .tAfter t.id .start]) := by
  unfold taskInvoke
  simp [TTrans.src, TTrans.tgt, h]

theorem taskInvoke_cancel {t : TaskM} (h : t.state = .pending) :
    taskInvoke t .cancel = .ok
      ({ t with
         state := .cancelled
         error := some (.err "Task was cancelled!") },
      [.tBefore t.id .cancel, .tLeave t.id t.state,
       .tEnter t.id .cancelled, .tAfter t.id .cancel]) := by
  unfold taskInvoke
  simp [TTrans.src, TTrans.tgt, h]

theorem taskInvoke_fail {t : TaskM} (h : t.state = .running) :
    taskInvoke t .fail = .ok ({ t with state := .failed },
      [.tBefore t.id .fail, .tLeave t.id t.state,
       .tEnter t.id .failed, .tAfter t.id .fail]) := by
  unfold taskInvoke
  simp [TTrans.src, TTrans.tgt, h]

theorem taskInvoke_succeed {t : TaskM} (h : t.state = .running) :
    taskInvoke t .succeed = .ok ({ t with state := .succeeded },
      [.tBefore t.id .succeed, .tLeave t.id t.state,
       .tEnter t.id .succeeded, .tAfter t.id .succeed]) := by
  unfold taskInvoke
  simp [TTrans.src, TTrans.tgt, h]

theorem taskInvoke_retry {t : TaskM} (h : t.state = .failed) :
    taskInvoke t .retry = .ok ({ t with state := .pending },
      [.tBefore t.id .retry, .tLeave t.id t.state,
       .tEnter t.id .pending, .tAfter t.id .retry]) := by
  unfold taskInvoke
  simp [TTrans.src, TTrans.tgt, h]

theorem taskInvoke_cancel_err {t : TaskM} (h : t.state ≠ .pending) :
    taskInvoke t .cancel = .error ("Invalid state transition: "
      ++ t.state.name ++ " -> " ++ TState.name .cancelled) := by
  unfold taskInvoke
  simp [TTrans.src, TTrans.tgt, h]

theorem taskInvoke_remove (t : TaskM) :
    taskInvoke t .remove = .ok ({ t with state := .removed },
      [.tBefore t.id .remove, .tLeave t.id t.state,
       .tEnter t.id .removed, .tAfter t.id .remove]) := by
  unfold taskInvoke
  simp [TTrans.src, TTrans.tgt]

/-! ### Claim C9 -/

open DAG in
/-- C9: `addVertex` (and `Workflow.add`) accepts edges naming absent ids —
no error is raised, the dangling ids are stored verbatim in the vertex's
edge set, and the traversal contributes nothing for an id with no vertex
(the skip in `#dfsFrom`). -/
theorem claim_C9 :
    (∀ (α : Type) (g : DAG α) (i : String) (p : α)
      (edges : List String), g.hasV i = false →
      ∃ g2, addVertex g i p edges = .ok g2 ∧
        g2.findV i = some ⟨i, p, setOfList (edges.map some)⟩) ∧
    (∀ (α : Type) (g : DAG α) (fuel : Nat) (vis : List String)
      (j : String), g.findV j = none →
      dfsVisit g fuel vis (some j) = ([], vis)) ∧
    (∀ (wf : WfM) (work : Nat → List JSVal → AttemptOutcome)
      (cfg : TaskCfg), wf.dag.hasV cfg.id = false →
      ∃ r, addW wf work cfg = .ok r) := by
  refine ⟨?_, ?_, ?_⟩
  · intro α g i p edges h
    have hok : addVertex g i p edges = .ok { g with
        vertices := g.vertices ++ [⟨i, p, setOfList (edges.map some)⟩],
        dirty := true } := by
      unfold addVertex
      simp [h]
    refine ⟨_, hok, ?_⟩
    have hfind := findV_addVertex hok i
    rw [hfind]
    have hnone : g.findV i = none := by
      unfold hasV at h
      cases hf : g.findV i with
      | none => rfl
      | some v => rw [hf] at h; simp at h
    rw [hnone]
    simp
  · intro α g fuel vis j h
    exact dfsVisit_missing g fuel vis h
  · intro wf work cfg h
    cases haw : addW wf work cfg with
    | ok r => exact ⟨r, rfl⟩
    | error m =>
      exfalso
      unfold addW mkTask taskInvoke DAG.addVertex at haw
      simp [TTrans.src, TTrans.tgt, h] at haw

open DAG in
/-- Witness for C9: a vertex whose only edge names the absent id `ghost`
is accepted and stored; the traversal of `ghost` yields nothing; and
`Workflow.add` accepts a task relying on `ghost`. -/
theorem claim_C9_witness :
    ((DAG.empty Int).hasV "B" = false ∧
      ∃ g2, DAG.addVertex (DAG.empty Int) "B" 1 ["ghost"] = .ok g2 ∧
        g2.findV "B" = some ⟨"B", 1, [some "ghost"]⟩) ∧
    (cexG.findV "ghost" = none ∧
      dfsVisit cexG 4 [] (some "ghost") = ([], [])) ∧
    ((newWf "w9").dag.hasV "B" = false ∧
      ∃ r, addW (newWf "w9") workOk { id := "B", reliesOn := ["ghost"] }
        = .ok r) := by
  refine ⟨⟨by decide, ?_⟩, ⟨by decide, ?_⟩, ⟨by decide, ?_⟩⟩
  · exact claim_C9.1 Int (DAG.empty Int) "B" 1 ["ghost"] (by decide)
  · exact claim_C9.2.1 Int cexG 4 [] "ghost" (by decide)
  · exact claim_C9.2.2 (newWf "w9") workOk { id := "B", reliesOn := ["ghost"] }
      (by decide)

/-! ### Claim C7 -/

/-- C7 counterexample: `cancel()` on a task in state `running` is *not* a
no-op — the state machine's validation throws `Invalid state transition`
(`cancel` is declared `pending → cancelled` and the current state is
checked against `from`). -/
theorem claim_C7_cex :
    taskInvoke tRun .cancel =
      .error "Invalid state transition: running -> cancelled" := rfl

/-- C7 (amended): `pause()` while paused and `resume()` while executing
are no-ops, and `remove()` on an already removed task leaves the task
unchanged and raises no error (its `from` is the wildcard `"*"`); but
`cancel()` on a task not in state `pending` raises `InvalidTransition`
instead of being a no-op. -/
theorem claim_C7_amended :
    (∀ wf : WfM, wf.wstate = .paused → pauseW wf = (.ok (), wf, [])) ∧
    (∀ wf : WfM, wf.wstate = .executing → resumeW wf = (.ok (), wf, [])) ∧
    (∀ t : TaskM, t.state = .removed →
      ∃ evs, taskInvoke t .remove = .ok (t, evs)) ∧
    (∀ t : TaskM, t.state ≠ .pending →
      ∃ m, taskInvoke t .cancel = .error m) := by
  refine ⟨?_, ?_, ?_, ?_⟩
  · intro wf h
    unfold pauseW
    simp [h]
  · intro wf h
    unfold resumeW
    simp [h]
  · intro t h
    have ht : ({ t with state := TState.removed } : TaskM) = t := by
      rw [← h]
    exact ⟨[.tBefore t.id .remove, .tLeave t.id t.state,
      .tEnter t.id .removed, .tAfter t.id .remove],
      by rw [taskInvoke_remove t, ht]⟩
  · intro t h
    exact ⟨_, taskInvoke_cancel_err h⟩

/-- Witness for C7 at concrete inputs: a paused workflow, an executing
workflow, a removed task and a running task. -/
theorem claim_C7_witness :
    (wfPaused.wstate = .paused ∧ pauseW wfPaused = (.ok (), wfPaused, []))
    ∧ (wfExec.wstate = .executing ∧
        resumeW wfExec = (.ok (), wfExec, []))
    ∧ (tRem.state = .removed ∧
        ∃ evs, taskInvoke tRem .remove = .ok (tRem, evs))
    ∧ (tRun.state ≠ .pending ∧
        ∃ m, taskInvoke tRun .cancel = .error m) := by
  refine ⟨⟨rfl, claim_C7_amended.1 wfPaused rfl⟩,
    ⟨rfl, claim_C7_amended.2.1 wfExec rfl⟩,
    ⟨rfl, claim_C7_amended.2.2.1 tRem rfl⟩,
    ⟨by decide, claim_C7_amended.2.2.2 tRun (by decide)⟩⟩

/-! ### Trace measures of `attempt` and the retry loop -/

theorem startsCount_append (a b : List Ev) :
    startsCount (a ++ b) = startsCount a + startsCount b := by
  simp [startsCount, List.filter_append]

theorem waitsOf_append (a b : List Ev) :
    waitsOf (a ++ b) = waitsOf a ++ waitsOf b := by
  simp [waitsOf, List.filterMap_append]

theorem taskInvoke_ok_fields {t : TaskM} {tr : TTrans} {t2 : TaskM}
    {evs : List Ev} (h : taskInvoke t tr = .ok (t2, evs)) :
    t2.attempts = t.attempts ∧ t2.result = t.result ∧ SameCfg t t2 ∧
      evs = [.tBefore t.id tr, .tLeave t.id t.state,
        .tEnter t.id tr.tgt, .tAfter t.id tr] := by
  unfold taskInvoke at h
  cases tr <;> simp only [TTrans.src, TTrans.tgt] at h ⊢ <;>
    split at h <;>
    first
    | (simp only [Except.ok.injEq, Prod.mk.injEq] at h
       obtain ⟨h2, hevs⟩ := h
       subst h2
       exact ⟨rfl, rfl, ⟨rfl, rfl, rfl, rfl, rfl, rfl, rfl⟩, hevs.symm⟩)
    | simp at h

theorem startsCount_invoke (id : String) (st : TState) (tgt : TState)
    (tr : TTrans) :
    startsCount [.tBefore id tr, .tLeave id st, .tEnter id tgt,
      .tAfter id tr] = if tr = .start then 1 else 0 := by
  cases tr <;> simp [startsCount]

theorem waitsOf_invoke (id : String) (st : TState) (tgt : TState)
    (tr : TTrans) :
    waitsOf [.tBefore id tr, .tLeave id st, .tEnter id tgt,
      .tAfter id tr] = [] := by
  simp [waitsOf]

theorem attempt_measures (t : TaskM) (deps : List JSVal) :
    waitsOf (attempt t deps).2.2 = [] ∧
    startsCount (attempt t deps).2.2 ≤ 1 ∧
    (attempt t deps).2.1.attempts = t.attempts ∧
    SameCfg t (attempt t deps).2.1 := by
  unfold attempt
  by_cases hrem : t.state = .removed
  · simp [hrem, waitsOf, startsCount, SameCfg]
  · simp only [hrem, if_false, if_neg hrem]
    match hstart : taskInvoke t .start with
    | .error m => simp [waitsOf, startsCount, SameCfg]
    | .ok (t1, evs1) =>
      obtain ⟨ha1, hr1, hc1, hevs1⟩ := taskInvoke_ok_fields hstart
      subst hevs1
      simp only [hstart]
      match hw : t1.work t1.attempts deps with
      | .ok v =>
        simp only [hw]
        match hsucc : taskInvoke { t1 with result := v } .succeed with
        | .error m =>
          simp only [hsucc]
          refine ⟨?_, ?_, ?_, ?_⟩
          · simp [waitsOf_append, waitsOf, waitsOf_invoke]
          · simp [startsCount_append, startsCount_invoke, startsCount]
          · simpa using ha1
          · simpa [SameCfg] using hc1
        | .ok (t3, evs2) =>
          obtain ⟨ha3, hr3, hc3, hevs3⟩ := taskInvoke_ok_fields hsucc
          subst hevs3
          simp only [hsucc]
          refine ⟨?_, ?_, ?_, ?_⟩
          · simp [waitsOf_append, waitsOf, waitsOf_invoke]
          · simp [startsCount_append, startsCount_invoke, startsCount]
          · rw [ha3]
            simpa using ha1
          · obtain ⟨c1, c2, c3, c4, c5, c6, c7⟩ := hc1
            obtain ⟨d1, d2, d3, d4, d5, d6, d7⟩ := hc3
            refine ⟨?_, ?_, ?_, ?_, ?_, ?_, ?_⟩ <;> simp_all
      | .fail e =>
        simp only [hw]
        refine ⟨?_, ?_, ?_, ?_⟩
        · simp [waitsOf_append, waitsOf, waitsOf_invoke]
        · simp [startsCount_append, startsCount_invoke, startsCount]
        · exact ha1
        · exact hc1
      | .timedOut =>
        simp only [hw]
        match htout : taskInvoke t1 .timeout with
        | .error m =>
          simp only [htout]
          refine ⟨?_, ?_, ?_, ?_⟩
          · simp [waitsOf_append, waitsOf, waitsOf_invoke]
          · simp [startsCount_append, startsCount_invoke, startsCount]
          · exact ha1
          · exact hc1
        | .ok (t2, evs2) =>
          obtain ⟨ha2, hr2, hc2, hevs2⟩ := taskInvoke_ok_fields htout
          subst hevs2
          simp only [htout]
          refine ⟨?_, ?_, ?_, ?_⟩
          · simp [waitsOf_append, waitsOf, waitsOf_invoke]
          · simp [startsCount_append, startsCount_invoke, startsCount]
          · rw [ha2, ha1]
          · obtain ⟨c1, c2, c3, c4, c5, c6, c7⟩ := hc1
            obtain ⟨d1, d2, d3, d4, d5, d6, d7⟩ := hc2
            refine ⟨?_, ?_, ?_, ?_, ?_, ?_, ?_⟩ <;> simp_all

theorem taskInvoke_error_pres {t : TaskM} {tr : TTrans} {t2 : TaskM}
    {evs : List Ev} (h : taskInvoke t tr = .ok (t2, evs))
    (hne : tr ≠ .start) (hne2 : tr ≠ .cancel) : t2.error = t.error := by
  unfold taskInvoke at h
  cases tr <;> simp only [TTrans.src, TTrans.tgt] at h <;>
    split at h <;>
    first
    | (exact absurd rfl hne)
    | (exact absurd rfl hne2)
    | (simp only [Except.ok.injEq, Prod.mk.injEq] at h
       obtain ⟨h2, -⟩ := h
       subst h2
       rfl)
    | exact absurd h (by simp)

theorem taskInvoke_state {t : TaskM} {tr : TTrans} {t2 : TaskM}
    {evs : List Ev} (h : taskInvoke t tr = .ok (t2, evs)) :
    t2.state = tr.tgt := by
  unfold taskInvoke at h
  cases tr <;> simp only [TTrans.src, TTrans.tgt] at h <;>
    split at h <;>
    first
    | (simp only [Except.ok.injEq, Prod.mk.injEq] at h
       obtain ⟨h2, -⟩ := h
       subst h2
       rfl)
    | exact absurd h (by simp)

theorem failStep_fields {t1 : TaskM} {e : JSVal} {t3 : TaskM}
    {tr2 : List Ev}
    (h : (if t1.state ≠ TState.failed then
        taskInvoke { t1 with error := some e } .fail
      else .ok ({ t1 with error := some e }, [])) = .ok (t3, tr2)) :
    t3.attempts = t1.attempts ∧ t3.retryLimit = t1.retryLimit ∧
    t3.backoff = t1.backoff ∧ t3.work = t1.work ∧
    t3.error = some e ∧
    startsCount tr2 = 0 ∧ waitsOf tr2 = [] := by
  split at h
  · obtain ⟨ha, hr, hc, hevs⟩ := taskInvoke_ok_fields h
    subst hevs
    obtain ⟨c1, c2, c3, c4, c5, c6, c7⟩ := hc
    refine ⟨by simpa using ha, by simpa using c4, by simpa using c5,
      by simpa using c7, ?_, by simp [startsCount_invoke], by simp [waitsOf]⟩
    · rw [taskInvoke_error_pres h (by decide) (by decide)]
  · simp only [Except.ok.injEq, Prod.mk.injEq] at h
    obtain ⟨h2, hevs⟩ := h
    subst h2
    subst hevs
    exact ⟨rfl, rfl, rfl, rfl, rfl, by simp [startsCount], by simp [waitsOf]⟩

theorem retryStep_fields {t3 : TaskM} {t4 : TaskM} {tr3 : List Ev}
    (h : taskInvoke t3 .retry = .ok (t4, tr3)) :
    t4.attempts = t3.attempts ∧ t4.backoff = t3.backoff ∧
    t4.retryLimit = t3.retryLimit ∧ t4.work = t3.work ∧ t4.state = .pending ∧
    startsCount tr3 = 0 ∧ waitsOf tr3 = [] := by
  obtain ⟨ha, hr, hc, hevs⟩ := taskInvoke_ok_fields h
  subst hevs
  obtain ⟨c1, c2, c3, c4, c5, c6, c7⟩ := hc
  exact ⟨ha, c5, c4, c7, taskInvoke_state h, by simp [startsCount_invoke],
    by simp [waitsOf]⟩

theorem execLoop_starts (deps : List JSVal) :
    ∀ (rem : Nat) (t : TaskM),
      startsCount (execLoop deps t rem).2.2 ≤ rem := by
  intro rem
  induction rem with
  | zero => intro t; simp [execLoop, startsCount]
  | succ rem ih =>
    intro t
    obtain ⟨hwaits, hstarts, hatt, hcfg⟩ := attempt_measures t deps
    unfold execLoop
    match hat : attempt t deps with
    | (.ok v, t1, tr1) =>
      rw [hat] at hstarts
      simp only at hstarts ⊢
      omega
    | (.error e, t1, tr1) =>
      rw [hat] at hstarts
      simp only at hstarts
      simp only
      match hs : (if t1.state ≠ TState.failed then
          taskInvoke { t1 with error := some e } .fail
        else .ok ({ t1 with error := some e }, [])) with
      | .error m =>
        simp only
        exact le_trans hstarts (by omega)
      | .ok (t3, tr2) =>
        simp only
        obtain ⟨f1, f2, f3, f4, f5, f6, f7⟩ := failStep_fields hs
        by_cases hrl : t3.attempts = t3.retryLimit
        · rw [if_pos hrl]
          simp only
          rw [startsCount_append, f6]
          omega
        · rw [if_neg hrl]
          match hr : taskInvoke t3 .retry with
          | .error m =>
            simp only
            rw [startsCount_append, f6]
            omega
          | .ok (t4, tr3) =>
            simp only
            obtain ⟨r1, r2, r3, r4, r5, r6, r7⟩ := retryStep_fields hr
            have hrest := ih { t4 with attempts := t4.attempts + 1 }
            rw [startsCount_append, startsCount_append,
              startsCount_append, startsCount_append, f6, r6]
            have hone : startsCount [Ev.waited t4.id
                (2 ^ t4.attempts * t4.backoff)] = 0 := by
              simp [startsCount]
            rw [hone]
            omega

theorem execLoop_waits (deps : List JSVal) :
    ∀ (rem : Nat) (t : TaskM) (j : Nat) (w : Nat),
      (waitsOf (execLoop deps t rem).2.2).get? j = some w →
      w = 2 ^ (t.attempts + j) * t.backoff := by
  intro rem
  induction rem with
  | zero => intro t j w h; simp [execLoop, waitsOf] at h
  | succ rem ih =>
    intro t j w h
    obtain ⟨hwaits, hstarts, hatt, hcfg⟩ := attempt_measures t deps
    obtain ⟨c1, c2, c3, c4, c5, c6, c7⟩ := hcfg
    unfold execLoop at h
    match hat : attempt t deps with
    | (.ok v, t1, tr1) =>
      rw [hat] at h hwaits
      simp only at h hwaits
      rw [hwaits] at h
      simp at h
    | (.error e, t1, tr1) =>
      rw [hat] at h hwaits hatt c5
      simp only at h hwaits hatt c5
      match hs : (if t1.state ≠ TState.failed then
          taskInvoke { t1 with error := some e } .fail
        else .ok ({ t1 with error := some e }, [])) with
      | .error m =>
        rw [hs] at h
        simp only at h
        rw [hwaits] at h
        simp at h
      | .ok (t3, tr2) =>
        rw [hs] at h
        simp only at h
        obtain ⟨f1, f2, f3, f4, f5, f6, f7⟩ := failStep_fields hs
        by_cases hrl : t3.attempts = t3.retryLimit
        · rw [if_pos hrl] at h
          simp only at h
          rw [waitsOf_append, hwaits, f7] at h
          simp at h
        · rw [if_neg hrl] at h
          match hr : taskInvoke t3 .retry with
          | .error m =>
            rw [hr] at h
            simp only at h
            rw [waitsOf_append, hwaits, f7] at h
            simp at h
          | .ok (t4, tr3) =>
            rw [hr] at h
            obtain ⟨r1, r2, r3, r4, r5, r6, r7⟩ := retryStep_fields hr
            simp only at h
            rw [waitsOf_append, waitsOf_append, waitsOf_append,
              waitsOf_append, hwaits, f7, r7] at h
            have hwone : waitsOf [Ev.waited t4.id
                (2 ^ t4.attempts * t4.backoff)] =
                [2 ^ t4.attempts * t4.backoff] := by
              simp [waitsOf]
            rw [hwone] at h
            simp only [List.nil_append, List.append_nil] at h
            match j, h with
            | 0, h =>
              have hw0 : w = 2 ^ t4.attempts * t4.backoff := by
                simpa using h.symm
              rw [hw0, r1, f1, hatt, r2, f3, c5]
              simp
            | j + 1, h =>
              have hrec := ih { t4 with attempts := t4.attempts + 1 } j w
                (by simpa using h)
              rw [hrec]
              simp only
              rw [r1, f1, hatt, r2, f3, c5]
              ring_nf

/-! ### Claim C5 -/

/-- C5: `execute` performs at most `retryLimit + 1` attempts (at most that
many `start` transitions), and the delay requested from the timer between
consecutive attempts `k` and `k + 1` is exactly `backoff * 2 ^ k` ms. -/
theorem claim_C5 (t : TaskM) (deps : List JSVal) :
    startsCount (execute t deps).2.2 ≤ t.retryLimit + 1 ∧
    (∀ j w, (waitsOf (execute t deps).2.2).get? j = some w →
      w = 2 ^ j * t.backoff) := by
  unfold execute
  by_cases hc : t.state = .cancelled
  · simp [hc, startsCount, waitsOf]
  · rw [if_neg hc]
    constructor
    · have h := execLoop_starts deps (t.retryLimit + 1)
        { t with attempts := 0 }
      simpa using h
    · intro j w h
      have h2 := execLoop_waits deps (t.retryLimit + 1)
        { t with attempts := 0 } j w h
      simpa using h2

/-- Witness for C5 on a pending task with `retryLimit = 2`,
`backoff = 100` whose work always throws: the second requested delay is
`200 = 2 ^ 1 * 100`. -/
theorem claim_C5_witness :
    startsCount (execute tC5 []).2.2 ≤ tC5.retryLimit + 1 ∧
    ((waitsOf (execute tC5 []).2.2).get? 1 = some 200 ∧
      (200 : Nat) = 2 ^ 1 * tC5.backoff) :=
  ⟨(claim_C5 tC5 []).1, by decide, (claim_C5 tC5 []).2 1 200 (by decide)⟩

/-! ### Claim C4: exhausted retries re-raise; the run captures the error -/

theorem attempt_pending_fail {t : TaskM} {deps : List JSVal} {e : JSVal}
    (h : t.state = .pending) (hw : t.work t.attempts deps = .fail e) :
    attempt t deps = (.error e,
      { t with state := .running, error := none },
      [.tBefore t.id .start, .tLeave t.id t.state, .tEnter t.id .running,
       .tAfter t.id .start, .workCalled t.id t.attempts]) := by
  unfold attempt
  have hrem : ¬ t.state = .removed := by rw [h]; intro hh; cases hh
  rw [if_neg hrem, taskInvoke_start h]
  simp [hw]

theorem execLoop_all_fail (deps : List JSVal) (es : Nat → JSVal) :
    ∀ (rem : Nat) (t : TaskM), t.state = .pending →
      (∀ k, t.work k deps = .fail (es k)) →
      rem = t.retryLimit + 1 - t.attempts → t.attempts ≤ t.retryLimit →
      (execLoop deps t rem).1 = .error (es t.retryLimit) ∧
      (execLoop deps t rem).2.1.state = .failed ∧
      (execLoop deps t rem).2.1.error = some (es t.retryLimit) := by
  intro rem
  induction rem with
  | zero =>
    intro t _ _ hrem hle
    omega
  | succ rem ih =>
    intro t hst hwork hrem hle
    unfold execLoop
    rw [attempt_pending_fail hst (hwork t.attempts)]
    simp only
    rw [if_pos (show TState.running ≠ TState.failed from
      fun hh => TState.noConfusion hh)]
    rw [taskInvoke_fail rfl]
    simp only
    by_cases hrl : t.attempts = t.retryLimit
    · rw [if_pos (by simpa using hrl)]
      refine ⟨by simp [hrl], rfl, by simp [hrl]⟩
    · rw [if_neg (by simpa using hrl)]
      rw [taskInvoke_retry rfl]
      simp only
      have hrec := ih { t with
          state := TState.pending
          attempts := t.attempts + 1
          error := some (es t.attempts) } rfl hwork (by simp; omega)
        (by simp; omega)
      simpa using hrec

/-- C4: when the final attempt fails (`attempts == retryLimit`), `execute`
re-raises the stored error; `Workflow.#run` catches it so the task's
future settles to that error *as a value*, which is memoized in the
`processed` map; the error is raised to the consumer in `try()` iteration
(after a successful `abort()`), while `stream()` only passes the task
itself along as a value. -/
theorem claim_C4 :
    (∀ (t : TaskM) (deps : List JSVal) (es : Nat → JSVal),
      t.state = .pending → (∀ k, t.work k deps = .fail (es k)) →
      (execute t deps).1 = .error (es t.retryLimit) ∧
      (execute t deps).2.1.state = .failed ∧
      (execute t deps).2.1.error = some (es t.retryLimit)) ∧
    (∀ (wf : WfM) (i : String) (sList : List SettledV) (t : TaskM)
      (e : JSVal), storeGet wf i = some t →
      sList.any SettledV.isBad = false →
      (execute t (sList.map SettledV.val)).1 = .error e →
      (finishRun wf i sList).1 = .fulfilled e) ∧
    (∀ (fuel : Nat) (wf : WfM) (i : String) (t : TaskM),
      lookupProc wf i = none → storeGet wf i = some t →
      lookupProc (runTask (fuel + 1) wf i).2.1 i =
        some (runTask (fuel + 1) wf i).1) ∧
    (∀ (wf : WfM) (fl : TryFilters) (pre : List TaskM) (f : TaskM)
      (rest : List TaskM), f.state = .failed →
      (∀ u ∈ pre, u.state ≠ .failed) → (abortW wf).1 = .ok () →
      (tryRun wf fl (pre ++ f :: rest)).1 =
        .error (f.error.getD .undef)) ∧
    (∀ (wf : WfM) (fl : StreamFilters) (obs : List TaskM) (t : TaskM),
      t ∈ obs → fl.anyState = true →
      DAG.isTerminal wf.dag t.id = true → fl.filterF t = true →
      t ∈ streamSelect wf fl obs) := by
  refine ⟨?_, ?_, ?_, ?_, ?_⟩
  · intro t deps es hst hwork
    unfold execute
    have hc : ¬ t.state = .cancelled := by rw [hst]; intro hh; cases hh
    rw [if_neg hc]
    have h := execLoop_all_fail deps es (t.retryLimit + 1)
      { t with attempts := 0 } hst hwork (by simp) (by simp)
    simpa using h
  · intro wf i sList t e ht hok he
    unfold finishRun
    rw [ht]
    simp only [hok, Bool.false_eq_true, if_false]
    match hex : execute t (sList.map SettledV.val) with
    | (.ok v, t2, tr) => rw [hex] at he; simp at he
    | (.error e2, t2, tr) =>
      rw [hex] at he
      simp only [Except.error.injEq] at he
      rw [he]
  · intro fuel wf i t hp ht
    unfold runTask
    simp only [hp, ht]
    unfold lookupProc
    simp only
    rw [find_procSet_self]
    rfl
  · intro wf fl pre f rest hf hpre habort
    induction pre with
    | nil =>
      simp only [List.nil_append]
      unfold tryRun
      rw [if_pos hf]
      unfold abortW at habort ⊢
      match hab : wfInvoke wf .abort with
      | (.ok u, wf2, evs) => simp
      | (.error m, wf2, evs) => rw [hab] at habort; simp at habort
    | cons u us ih =>
      have hu : u.state ≠ .failed := hpre u (List.mem_cons_self u us)
      have hrest := ih (fun v hv => hpre v (List.mem_cons_of_mem u hv))
      simp only [List.cons_append]
      unfold tryRun
      rw [if_neg hu]
      simp only
      match hr : tryRun wf fl (us ++ f :: rest) with
      | (.ok vs, wf2, evs) => rw [hr] at hrest; simp at hrest
      | (.error e, wf2, evs) =>
        rw [hr] at hrest
        simp only at hrest
        simp only [hrest]
  · intro wf fl obs t hmem hany hterm hfil
    unfold streamSelect
    refine List.mem_filter.mpr ⟨hmem, ?_⟩
    simp [hany, hterm, hfil]

/-- Witness for C4: the always-failing task `tC5` re-raises `E2` after
its third attempt; the run of `A` in the S5 workflow memoizes its settled
value; observing the failed task `tY` through `try()` raises `bad`. -/
theorem claim_C4_witness :
    (tC5.state = .pending ∧ (execute tC5 []).1 = .error (.err "E2")) ∧
    (lookupProc (runTask 3 wfS5 "A").2.1 "A" =
      some (runTask 3 wfS5 "A").1) ∧
    (tY.state = .failed ∧ (abortW wfXYZ).1 = .ok () ∧
      (tryRun wfXYZ {} (tY :: [tZ])).1 = .error (.err "bad")) := by
  refine ⟨⟨rfl, ?_⟩, ?_, rfl, ?_, ?_⟩
  · exact (claim_C4.1 tC5 []
      (fun k => .err ("E" ++ toString k)) rfl (fun k => rfl)).1
  · exact claim_C4.2.2.1 2 wfS5 "A" tA5 rfl rfl
  · rfl
  · exact claim_C4.2.2.2.1 wfXYZ {} [] tY [tZ] rfl
      (fun u hu => absurd hu (List.not_mem_nil u)) rfl

/-! ### Claim C2: a bad dependency outcome cancels the dependent task -/

/-- C2: when some dependency outcome is a rejection or an error value,
`Workflow.#run` cancels the task before executing it: the task ends
`cancelled`, its future settles to the installed `"Task was cancelled!"`
error as a value, the emitted events are exactly the four `cancel` events
(so `execute` failed immediately), and the work is never invoked. -/
theorem claim_C2 (wf : WfM) (i : String) (sList : List SettledV)
    (t : TaskM) (ht : storeGet wf i = some t) (hp : t.state = .pending)
    (hbad : sList.any SettledV.isBad = true) :
    (finishRun wf i sList).1 = .fulfilled (.err "Task was cancelled!") ∧
    ((storeGet (finishRun wf i sList).2.1 i).map TaskM.state =
      some .cancelled) ∧
    (finishRun wf i sList).2.2 =
      [.tBefore t.id .cancel, .tLeave t.id t.state,
       .tEnter t.id .cancelled, .tAfter t.id .cancel] ∧
    (∀ a k, Ev.workCalled a k ∉ (finishRun wf i sList).2.2) := by
  have hsome : (storeGet wf i).isSome := by rw [ht]; rfl
  unfold finishRun
  rw [ht]
  simp only [hbad, if_true]
  rw [taskInvoke_cancel hp]
  simp only
  unfold execute
  rw [if_pos rfl]
  simp only
  refine ⟨rfl, ?_, by simp, by intro a k; simp⟩
  rw [storeGet_storeSet_self _ _ _
    (by rw [storeGet_storeSet_self _ _ _ hsome]; rfl)]
  rfl

/-- Witness for C2 at scenario S5's dependent `B`: its only dependency
settled to an error value. -/
theorem claim_C2_witness :
    (storeGet wfB "B" = some tB ∧ tB.state = .pending ∧
      ([SettledV.fulfilled (.err "boom")].any SettledV.isBad = true)) ∧
    (finishRun wfB "B" [SettledV.fulfilled (.err "boom")]).1 =
      .fulfilled (.err "Task was cancelled!") ∧
    ((storeGet (finishRun wfB "B"
        [SettledV.fulfilled (.err "boom")]).2.1 "B").map TaskM.state =
      some .cancelled) ∧
    (∀ a k, Ev.workCalled a k ∉
      (finishRun wfB "B" [SettledV.fulfilled (.err "boom")]).2.2) := by
  have h := claim_C2 wfB "B" [SettledV.fulfilled (.err "boom")] tB rfl rfl
    (by decide)
  exact ⟨⟨rfl, rfl, by decide⟩, h.1, h.2.1, h.2.2.2⟩

/-! ### Claim C6: fail-fast in `try()` and the abort cancellation sweep -/

theorem cancelTasks_frame :
    ∀ (ps : List String) (wf : WfM) (i : String), i ∉ ps →
      storeGet (cancelTasks wf ps).2.1 i = storeGet wf i := by
  intro ps
  induction ps with
  | nil => intro wf i _; rfl
  | cons j rest ih =>
    intro wf i hni
    have hij : i ≠ j := fun hh => hni (hh ▸ List.mem_cons_self j rest)
    have hnr : i ∉ rest := fun hh => hni (List.mem_cons_of_mem j hh)
    unfold cancelTasks
    match hsg : storeGet wf j with
    | none => exact ih wf i hnr
    | some t =>
      simp only
      match hti : taskInvoke t .cancel with
      | .error m => simp only [hti]
      | .ok (t2, evs) =>
        simp only [hti]
        rw [ih (storeSet wf j t2) i hnr, storeGet_storeSet_ne wf j t2 hij]

theorem cancelTasks_pending :
    ∀ (ps : List String) (wf : WfM), ps.Nodup →
      (∀ i ∈ ps, ∃ t, storeGet wf i = some t ∧ t.state = .pending) →
      (cancelTasks wf ps).1 = .ok () ∧
      (∀ i ∈ ps, (storeGet (cancelTasks wf ps).2.1 i).map TaskM.state =
        some TState.cancelled) := by
  intro ps
  induction ps with
  | nil =>
    intro wf _ _
    exact ⟨rfl, fun i hi => absurd hi (List.not_mem_nil i)⟩
  | cons j rest ih =>
    intro wf hnd hall
    obtain ⟨hjr, hndr⟩ := List.nodup_cons.mp hnd
    obtain ⟨t, hsg, hp⟩ := hall j (List.mem_cons_self j rest)
    unfold cancelTasks
    rw [hsg]
    simp only
    rw [taskInvoke_cancel hp]
    simp only
    have hall2 : ∀ i ∈ rest, ∃ u,
        storeGet (storeSet wf j { t with
          state := TState.cancelled
          error := some (.err "Task was cancelled!") }) i = some u ∧
        u.state = .pending := by
      intro i hi
      have hij : i ≠ j := fun hh => hjr (hh ▸ hi)
      obtain ⟨u, hu, hup⟩ := hall i (List.mem_cons_of_mem j hi)
      exact ⟨u, by rw [storeGet_storeSet_ne _ _ _ hij]; exact hu, hup⟩
    have hrec := ih (storeSet wf j { t with
        state := TState.cancelled
        error := some (.err "Task was cancelled!") }) hndr hall2
    refine ⟨hrec.1, ?_⟩
    intro i hi
    rcases List.mem_cons.mp hi with hij | hir
    · subst hij
      rw [cancelTasks_frame rest _ i hjr,
        storeGet_storeSet_self wf i _ (by rw [hsg]; rfl)]
      rfl
    · exact hrec.2 i hir

theorem pendSnap_pending (wf : WfM) :
    ∀ i ∈ pendSnap wf, ∃ t, storeGet (getOrderedM wf).2 i = some t ∧
      t.state = .pending := by
  intro i hi
  unfold pendSnap at hi
  simp only [List.mem_map, List.mem_filter, List.mem_filterMap] at hi
  obtain ⟨⟨a, t⟩, ⟨⟨c, hc, hmap⟩, hpend⟩, heq⟩ := hi
  rw [Option.map_eq_some'] at hmap
  obtain ⟨t0, hc0, hpair⟩ := hmap
  simp only [Prod.mk.injEq] at hpair
  obtain ⟨rfl, rfl⟩ := hpair
  simp only at heq hpend
  subst heq
  exact ⟨t0, hc0, by simpa using hpend⟩

theorem wfInvoke_abort_executing (wf : WfM) (h : wf.wstate = .executing) :
    (wfInvoke wf .abort).1 = (abortEnter (abortedView wf)).1 ∧
    (wfInvoke wf .abort).2.1 = (abortEnter (abortedView wf)).2.1 := by
  unfold wfInvoke
  rw [if_pos (show wf.wstate ∈ WTrans.src .abort by rw [h]; decide)]
  rw [show (if (WTrans.abort = WTrans.endT ∨ WTrans.abort = WTrans.abort)
      then drainRemove wf else wf) = drainRemove wf from if_pos (Or.inr rfl)]
  simp only
  rw [if_neg (show ¬ (drainRemove wf).wstate = WState.paused by
    show ¬ wf.wstate = WState.paused
    rw [h]
    decide)]
  simp only [WTrans.tgt]
  match habort : abortEnter (abortedView wf) with
  | (.ok u, wf4, evs4) =>
    cases u
    exact ⟨rfl, rfl⟩
  | (.error m, wf4, evs4) =>
    exact ⟨rfl, rfl⟩

/-- C6: in `try()` iteration over an executing workflow, the first task
observed in state `failed` makes the iterator call `abort()` and raise
that task's error out of the iteration, leaving the workflow the abort
produced; the `aborted`-enter handler cancels every task of its pending
snapshot, so each of those tasks ends `cancelled`. -/
theorem claim_C6 (wf : WfM) (fl : TryFilters) (pre : List TaskM)
    (f : TaskM) (rest : List TaskM)
    (hf : f.state = .failed) (hpre : ∀ u ∈ pre, u.state ≠ .failed)
    (hwst : wf.wstate = .executing)
    (hnd : (pendSnap (abortedView wf)).Nodup) :
    (abortW wf).1 = .ok () ∧
    (tryRun wf fl (pre ++ f :: rest)).1 = .error (f.error.getD .undef) ∧
    (tryRun wf fl (pre ++ f :: rest)).2.1 = (abortW wf).2.1 ∧
    (∀ i ∈ pendSnap (abortedView wf),
      (storeGet (abortW wf).2.1 i).map TaskM.state =
        some TState.cancelled) := by
  have hct := cancelTasks_pending (pendSnap (abortedView wf))
    (getOrderedM (abortedView wf)).2 hnd (pendSnap_pending (abortedView wf))
  have habort_eq : abortEnter (abortedView wf) =
      cancelTasks (getOrderedM (abortedView wf)).2
        (pendSnap (abortedView wf)) := rfl
  have hwfi := wfInvoke_abort_executing wf hwst
  have h1 : (abortW wf).1 = .ok () := by
    show (wfInvoke wf .abort).1 = .ok ()
    rw [hwfi.1, habort_eq]
    exact hct.1
  have h4 : ∀ i ∈ pendSnap (abortedView wf),
      (storeGet (abortW wf).2.1 i).map TaskM.state =
        some TState.cancelled := by
    intro i hi
    show (storeGet (wfInvoke wf .abort).2.1 i).map TaskM.state = _
    rw [hwfi.2, habort_eq]
    exact hct.2 i hi
  have h23 : (tryRun wf fl (pre ++ f :: rest)).1 =
        .error (f.error.getD .undef) ∧
      (tryRun wf fl (pre ++ f :: rest)).2.1 = (abortW wf).2.1 := by
    induction pre with
    | nil =>
      simp only [List.nil_append]
      unfold tryRun
      rw [if_pos hf]
      match hab : abortW wf with
      | (.ok u, wf2, evs) => exact ⟨rfl, rfl⟩
      | (.error m, wf2, evs) => rw [hab] at h1; simp at h1
    | cons u us ih =>
      have hu : u.state ≠ .failed := hpre u (List.mem_cons_self u us)
      have hrest := ih (fun v hv => hpre v (List.mem_cons_of_mem u hv))
      simp only [List.cons_append]
      unfold tryRun
      rw [if_neg hu]
      simp only
      match hr : tryRun wf fl (us ++ f :: rest) with
      | (.ok vs, wf2, evs) => rw [hr] at hrest; simp at hrest
      | (.error e, wf2, evs) =>
        rw [hr] at hrest
        simp only at hrest
        exact ⟨by simp only [hrest.1], hrest.2⟩
  exact ⟨h1, h23.1, h23.2, h4⟩

/-- Witness for C6 on the executing workflow `wfXYZ` (`X` pending, `Y`
failed with error `bad`, `Z` pending): `try()` raises `bad`, `abort()`
succeeds, and both pending tasks end `cancelled`. -/
theorem claim_C6_witness :
    tY.state = .failed ∧ wfXYZ.wstate = .executing ∧
    (pendSnap (abortedView wfXYZ)).Nodup ∧
    (abortW wfXYZ).1 = .ok () ∧
    (tryRun wfXYZ {} ([tX] ++ tY :: [tZ])).1 = .error (.err "bad") ∧
    ("X" ∈ pendSnap (abortedView wfXYZ) ∧
      (storeGet (abortW wfXYZ).2.1 "X").map TaskM.state =
        some TState.cancelled) ∧
    ("Z" ∈ pendSnap (abortedView wfXYZ) ∧
      (storeGet (abortW wfXYZ).2.1 "Z").map TaskM.state =
        some TState.cancelled) := by
  have h := claim_C6 wfXYZ {} [tX] tY [tZ] rfl
    (by
      intro u hu
      have hux : u = tX := by simpa using hu
      rw [hux]
      decide)
    rfl (by decide)
  exact ⟨rfl, rfl, by decide, h.1, h.2.1,
    ⟨by decide, h.2.2.2 "X" (by decide)⟩,
    ⟨by decide, h.2.2.2 "Z" (by decide)⟩⟩

/-! ### Claim C1: dependencies settle before the dependent task starts -/

theorem append_split_ev :
    ∀ (t1 t2 a b : List Ev) (e : Ev), t1 ++ t2 = a ++ e :: b →
      (∃ b1, t1 = a ++ e :: b1) ∨
      (∃ a2, a = t1 ++ a2 ∧ t2 = a2 ++ e :: b) := by
  intro t1
  induction t1 with
  | nil =>
    intro t2 a b e heq
    refine Or.inr ⟨a, by simp, by simpa using heq⟩
  | cons x xs ih =>
    intro t2 a b e heq
    cases a with
    | nil =>
      simp only [List.nil_append, List.cons_append, List.cons.injEq] at heq
      exact Or.inl ⟨xs, by simp [heq.1]⟩
    | cons y ys =>
      simp only [List.cons_append, List.cons.injEq] at heq
      obtain ⟨hxy, hrest⟩ := heq
      rcases ih t2 ys b e hrest with ⟨b1, hb1⟩ | ⟨a2, ha2, ht2⟩
      · exact Or.inl ⟨b1, by rw [hxy, hb1]; simp⟩
      · exact Or.inr ⟨a2, by rw [hxy, ha2]; simp, ht2⟩

theorem GoodTr_no_start {R : String → List String} {pre tr : List Ev}
    (h : ∀ j, Ev.tEnter j .running ∉ tr) : GoodTr R pre tr := by
  intro a i b heq d _
  refine absurd ?_ (h i)
  rw [heq]
  exact List.mem_append_right a (List.mem_cons_self _ _)

theorem GoodTr_append {R : String → List String} {pre t1 t2 : List Ev}
    (h1 : GoodTr R pre t1) (h2 : GoodTr R (pre ++ t1) t2) :
    GoodTr R pre (t1 ++ t2) := by
  intro a i b heq d hd
  rcases append_split_ev t1 t2 a b _ heq with ⟨b1, hb1⟩ | ⟨a2, ha2, ht2⟩
  · exact h1 a i b1 hb1 d hd
  · obtain ⟨s, hs⟩ := h2 a2 i b ht2 d hd
    refine ⟨s, ?_⟩
    rw [ha2, ← List.append_assoc]
    exact hs

theorem GoodTr_of_settled {R : String → List String} {pre tr : List Ev}
    {i0 : String} (hsett : ∀ d ∈ R i0, ∃ s, Ev.settled d s ∈ pre)
    (hid : ∀ e ∈ tr, evTask e = some i0) : GoodTr R pre tr := by
  intro a i b heq d hd
  have hin : Ev.tEnter i .running ∈ tr := by
    rw [heq]
    exact List.mem_append_right a (List.mem_cons_self _ _)
  have hii := hid _ hin
  simp only [evTask, Option.some.injEq] at hii
  obtain ⟨s, hs⟩ := hsett d (by rwa [hii] at hd)
  exact ⟨s, List.mem_append_left a hs⟩

theorem ProcOK_mono {wf : WfM} {pre : List Ev} (h : ProcOK wf pre)
    (ext : List Ev) : ProcOK wf (pre ++ ext) := by
  intro d hd
  obtain ⟨s, hs⟩ := h d hd
  exact ⟨s, List.mem_append_left ext hs⟩

theorem ProcOK_of_nil {wf : WfM} (h : wf.processed = []) (pre : List Ev) :
    ProcOK wf pre := by
  intro d hd
  unfold lookupProc at hd
  rw [h] at hd
  simp at hd

theorem SameCfg_refl (t : TaskM) : SameCfg t t :=
  ⟨rfl, rfl, rfl, rfl, rfl, rfl, rfl⟩

theorem SameCfg_trans {t1 t2 t3 : TaskM} (h1 : SameCfg t1 t2)
    (h2 : SameCfg t2 t3) : SameCfg t1 t3 := by
  obtain ⟨a1, a2, a3, a4, a5, a6, a7⟩ := h1
  obtain ⟨b1, b2, b3, b4, b5, b6, b7⟩ := h2
  exact ⟨b1.trans a1, b2.trans a2, b3.trans a3, b4.trans a4, b5.trans a5,
    b6.trans a6, b7.trans a7⟩

theorem execLoop_cfg (deps : List JSVal) :
    ∀ (rem : Nat) (t : TaskM), SameCfg t (execLoop deps t rem).2.1 := by
  intro rem
  induction rem with
  | zero => intro t; exact SameCfg_refl t
  | succ rem ih =>
    intro t
    have hat := (attempt_measures t deps).2.2.2
    unfold execLoop
    match ha : attempt t deps with
    | (.ok v, t1, tr1) =>
      rw [ha] at hat
      exact hat
    | (.error e, t1, tr1) =>
      rw [ha] at hat
      simp only at hat ⊢
      have hc1 : SameCfg t1 { t1 with error := some e } :=
        ⟨rfl, rfl, rfl, rfl, rfl, rfl, rfl⟩
      match hs : (if t1.state ≠ TState.failed then
          taskInvoke { t1 with error := some e } .fail
        else .ok ({ t1 with error := some e }, [])) with
      | .error m => exact SameCfg_trans hat hc1
      | .ok (t3, tr2) =>
        have hc3 : SameCfg { t1 with error := some e } t3 := by
          split at hs
          · exact (taskInvoke_ok_fields hs).2.2.1
          · simp only [Except.ok.injEq, Prod.mk.injEq] at hs
            rw [← hs.1]
            exact SameCfg_refl _
        simp only
        by_cases hrl : t3.attempts = t3.retryLimit
        · rw [if_pos hrl]
          exact SameCfg_trans (SameCfg_trans hat hc1) hc3
        · rw [if_neg hrl]
          match hr : taskInvoke t3 .retry with
          | .error m => exact SameCfg_trans (SameCfg_trans hat hc1) hc3
          | .ok (t4, tr3) =>
            simp only
            have hc4 := (taskInvoke_ok_fields hr).2.2.1
            have hc5 : SameCfg t4 { t4 with attempts := t4.attempts + 1 } :=
              ⟨rfl, rfl, rfl, rfl, rfl, rfl, rfl⟩
            exact SameCfg_trans (SameCfg_trans (SameCfg_trans
              (SameCfg_trans (SameCfg_trans hat hc1) hc3) hc4) hc5)
              (ih { t4 with attempts := t4.attempts + 1 })

theorem execute_cfg (t : TaskM) (deps : List JSVal) :
    SameCfg t (execute t deps).2.1 := by
  unfold execute
  by_cases hc : t.state = .cancelled
  · rw [if_pos hc]
    exact SameCfg_refl t
  · rw [if_neg hc]
    exact SameCfg_trans ⟨rfl, rfl, rfl, rfl, rfl, rfl, rfl⟩
      (execLoop_cfg deps (t.retryLimit + 1) { t with attempts := 0 })

theorem evTask_invoke_evs {t : TaskM} {tr : TTrans} {t2 : TaskM}
    {evs : List Ev} (h : taskInvoke t tr = .ok (t2, evs)) :
    ∀ e ∈ evs, evTask e = some t.id := by
  obtain ⟨-, -, -, hevs⟩ := taskInvoke_ok_fields h
  subst hevs
  intro e he
  simp only [List.mem_cons, List.not_mem_nil, or_false] at he
  rcases he with rfl | rfl | rfl | rfl <;> rfl

theorem attempt_ev_ids (t : TaskM) (deps : List JSVal) :
    ∀ e ∈ (attempt t deps).2.2, evTask e = some t.id := by
  unfold attempt
  by_cases hrem : t.state = .removed
  · rw [if_pos hrem]
    intro e he
    simp at he
  · rw [if_neg hrem]
    match hstart : taskInvoke t .start with
    | .error m =>
      intro e he
      simp at he
    | .ok (t1, evs1) =>
      have hid1 : t1.id = t.id := (taskInvoke_ok_fields hstart).2.2.1.1
      have hevs1 := evTask_invoke_evs hstart
      have hwc : ∀ e ∈ evs1 ++ [Ev.workCalled t1.id t1.attempts],
          evTask e = some t.id := by
        intro e he
        rcases List.mem_append.mp he with h1 | h2
        · exact hevs1 e h1
        · have he2 : e = Ev.workCalled t1.id t1.attempts := by simpa using h2
          rw [he2]
          simp [evTask, hid1]
      simp only
      match hw : t1.work t1.attempts deps with
      | .ok v =>
        simp only
        match hsucc : taskInvoke { t1 with result := v } .succeed with
        | .error m => exact hwc
        | .ok (t3, evs2) =>
          simp only
          intro e he
          rcases List.mem_append.mp he with h1 | h2
          · exact hwc e h1
          · have := evTask_invoke_evs hsucc e h2
            rw [this]
            simp [hid1]
      | .fail e0 => exact hwc
      | .timedOut =>
        simp only
        match htout : taskInvoke t1 .timeout with
        | .error m => exact hwc
        | .ok (t2, evs2) =>
          simp only
          intro e he
          rcases List.mem_append.mp he with h1 | h2
          · exact hwc e h1
          · have := evTask_invoke_evs htout e h2
            rw [this]
            simp [hid1]

theorem execLoop_ev_ids (deps : List JSVal) :
    ∀ (rem : Nat) (t : TaskM),
      ∀ e ∈ (execLoop deps t rem).2.2, evTask e = some t.id := by
  intro rem
  induction rem with
  | zero =>
    intro t e he
    simp [execLoop] at he
  | succ rem ih =>
    intro t
    have hatt := attempt_ev_ids t deps
    have hcfg := (attempt_measures t deps).2.2.2
    unfold execLoop
    match ha : attempt t deps with
    | (.ok v, t1, tr1) =>
      rw [ha] at hatt
      exact hatt
    | (.error e0, t1, tr1) =>
      rw [ha] at hatt hcfg
      simp only at hatt hcfg ⊢
      have hid1 : t1.id = t.id := hcfg.1
      match hs : (if t1.state ≠ TState.failed then
          taskInvoke { t1 with error := some e0 } .fail
        else .ok ({ t1 with error := some e0 }, [])) with
      | .error m => exact hatt
      | .ok (t3, tr2) =>
        have htr2 : ∀ e ∈ tr2, evTask e = some t.id := by
          split at hs
          · intro e he
            rw [evTask_invoke_evs hs e he]
            simp [hid1]
          · simp only [Except.ok.injEq, Prod.mk.injEq] at hs
            rw [← hs.2]
            intro e he
            simp at he
        have hid3 : t3.id = t.id := by
          split at hs
          · rw [(taskInvoke_ok_fields hs).2.2.1.1]
            simp [hid1]
          · simp only [Except.ok.injEq, Prod.mk.injEq] at hs
            rw [← hs.1]
            simp [hid1]
        simp only
        by_cases hrl : t3.attempts = t3.retryLimit
        · rw [if_pos hrl]
          intro e he
          rcases List.mem_append.mp he with h1 | h2
          · exact hatt e h1
          · exact htr2 e h2
        · rw [if_neg hrl]
          match hr : taskInvoke t3 .retry with
          | .error m =>
            intro e he
            rcases List.mem_append.mp he with h1 | h2
            · exact hatt e h1
            · exact htr2 e h2
          | .ok (t4, tr3) =>
            have hid4 : t4.id = t3.id := (taskInvoke_ok_fields hr).2.2.1.1
            have htr3 : ∀ e ∈ tr3, evTask e = some t.id := by
              intro e he
              rw [evTask_invoke_evs hr e he, hid3]
            simp only
            intro e he
            simp only [List.mem_append] at he
            rcases he with (((h1 | h2) | h3) | h4) | h5
            · exact hatt e h1
            · exact htr2 e h2
            · exact htr3 e h3
            · have he4 : e = Ev.waited t4.id (2 ^ t4.attempts * t4.backoff) :=
                by simpa using h4
              rw [he4]
              simp [evTask, hid4, hid3]
            · rw [ih { t4 with attempts := t4.attempts + 1 } e h5]
              simp [hid4, hid3]

theorem execute_ev_ids (t : TaskM) (deps : List JSVal) :
    ∀ e ∈ (execute t deps).2.2, evTask e = some t.id := by
  unfold execute
  by_cases hc : t.state = .cancelled
  · rw [if_pos hc]
    intro e he
    simp at he
  · rw [if_neg hc]
    intro e he
    rw [execLoop_ev_ids deps (t.retryLimit + 1) { t with attempts := 0 } e he]

theorem StoreOK_get {wf : WfM} {R : String → List String} {i : String}
    {t : TaskM} (hso : StoreOK wf R) (h : storeGet wf i = some t) :
    t.id = i ∧ t.reliesOn = R i := by
  unfold storeGet at h
  match hf : wf.tasks.find? (fun p => p.1 = i) with
  | none =>
    rw [hf] at h
    simp at h
  | some q =>
    rw [hf] at h
    simp only [Option.map_some'] at h
    have ht : q.2 = t := by simpa using h
    have hp := hso q (List.mem_of_find?_eq_some hf)
    have hq2 := List.find?_some hf
    have hpi : q.1 = i := by simpa using hq2
    rw [ht, hpi] at hp
    exact hp

theorem StoreOK_storeSet {wf : WfM} {R : String → List String} {i : String}
    {t' : TaskM} (hso : StoreOK wf R) (hid : t'.id = i)
    (hrel : t'.reliesOn = R i) : StoreOK (storeSet wf i t') R := by
  intro p hp
  unfold storeSet at hp
  simp only [List.mem_map] at hp
  obtain ⟨q, hq, hpq⟩ := hp
  by_cases hqi : q.1 = i
  · rw [if_pos hqi] at hpq
    rw [← hpq]
    exact ⟨hid, hrel⟩
  · rw [if_neg hqi] at hpq
    rw [← hpq]
    exact hso q hq

theorem finishRun_processed (wf : WfM) (i : String) (sList : List SettledV) :
    (finishRun wf i sList).2.1.processed = wf.processed := by
  unfold finishRun
  match hsg : storeGet wf i with
  | none => rfl
  | some t =>
    simp only
    by_cases hbad : sList.any SettledV.isBad
    · rw [if_pos hbad]
      match hti : taskInvoke t .cancel with
      | .error m => rfl
      | .ok (t2, evs) =>
        simp only
        match hex : execute t2 (sList.map SettledV.val) with
        | (.ok v, t4, tr) => rfl
        | (.error e2, t4, tr) => rfl
    · rw [if_neg hbad]
      simp only
      match hex : execute t (sList.map SettledV.val) with
      | (.ok v, t4, tr) => rfl
      | (.error e2, t4, tr) => rfl

theorem finishRun_StoreOK {R : String → List String} (wf : WfM) (i : String)
    (sList : List SettledV) (hso : StoreOK wf R) :
    StoreOK (finishRun wf i sList).2.1 R := by
  unfold finishRun
  match hsg : storeGet wf i with
  | none => exact hso
  | some t =>
    obtain ⟨hid, hrel⟩ := StoreOK_get hso hsg
    simp only
    by_cases hbad : sList.any SettledV.isBad
    · rw [if_pos hbad]
      match hti : taskInvoke t .cancel with
      | .error m => exact hso
      | .ok (t2, evs) =>
        simp only
        obtain ⟨-, -, hc2, -⟩ := taskInvoke_ok_fields hti
        have hid2 : t2.id = i := hc2.1.trans hid
        have hrel2 : t2.reliesOn = R i := hc2.2.1.trans hrel
        match hex : execute t2 (sList.map SettledV.val) with
        | (.ok v, t4, tr) =>
          have hc4 := execute_cfg t2 (sList.map SettledV.val)
          rw [hex] at hc4
          exact StoreOK_storeSet (StoreOK_storeSet hso hid2 hrel2)
            (hc4.1.trans hid2) (hc4.2.1.trans hrel2)
        | (.error e2, t4, tr) =>
          have hc4 := execute_cfg t2 (sList.map SettledV.val)
          rw [hex] at hc4
          exact StoreOK_storeSet (StoreOK_storeSet hso hid2 hrel2)
            (hc4.1.trans hid2) (hc4.2.1.trans hrel2)
    · rw [if_neg hbad]
      simp only
      match hex : execute t (sList.map SettledV.val) with
      | (.ok v, t4, tr) =>
        have hc4 := execute_cfg t (sList.map SettledV.val)
        rw [hex] at hc4
        exact StoreOK_storeSet (StoreOK_storeSet hso hid hrel)
          (hc4.1.trans hid) (hc4.2.1.trans hrel)
      | (.error e2, t4, tr) =>
        have hc4 := execute_cfg t (sList.map SettledV.val)
        rw [hex] at hc4
        exact StoreOK_storeSet (StoreOK_storeSet hso hid hrel)
          (hc4.1.trans hid) (hc4.2.1.trans hrel)

theorem finishRun_ev_ids {R : String → List String} (wf : WfM) (i : String)
    (sList : List SettledV) (hso : StoreOK wf R) :
    ∀ e ∈ (finishRun wf i sList).2.2, evTask e = some i := by
  unfold finishRun
  match hsg : storeGet wf i with
  | none =>
    intro e he
    simp at he
  | some t =>
    obtain ⟨hid, -⟩ := StoreOK_get hso hsg
    simp only
    by_cases hbad : sList.any SettledV.isBad
    · rw [if_pos hbad]
      match hti : taskInvoke t .cancel with
      | .error m =>
        intro e he
        simp at he
      | .ok (t2, evs) =>
        simp only
        have hevs : ∀ e ∈ evs, evTask e = some i := by
          intro e he
          rw [evTask_invoke_evs hti e he, hid]
        have hid2 : t2.id = i :=
          ((taskInvoke_ok_fields hti).2.2.1.1).trans hid
        match hex : execute t2 (sList.map SettledV.val) with
        | (.ok v, t4, tr) =>
          have hex_ids := execute_ev_ids t2 (sList.map SettledV.val)
          rw [hex] at hex_ids
          intro e he
          rcases List.mem_append.mp he with h1 | h2
          · exact hevs e h1
          · rw [hex_ids e h2, hid2]
        | (.error e2, t4, tr) =>
          have hex_ids := execute_ev_ids t2 (sList.map SettledV.val)
          rw [hex] at hex_ids
          intro e he
          rcases List.mem_append.mp he with h1 | h2
          · exact hevs e h1
          · rw [hex_ids e h2, hid2]
    · rw [if_neg hbad]
      simp only
      match hex : execute t (sList.map SettledV.val) with
      | (.ok v, t4, tr) =>
        have hex_ids := execute_ev_ids t (sList.map SettledV.val)
        rw [hex] at hex_ids
        intro e he
        rcases List.mem_append.mp he with h1 | h2
        · simp at h1
        · rw [hex_ids e h2, hid]
      | (.error e2, t4, tr) =>
        have hex_ids := execute_ev_ids t (sList.map SettledV.val)
        rw [hex] at hex_ids
        intro e he
        rcases List.mem_append.mp he with h1 | h2
        · simp at h1
        · rw [hex_ids e h2, hid]

theorem runDeps_good {R : String → List String}
    (runT : WfM → String → SettledV × WfM × List Ev)
    (hRT : ∀ (wf : WfM) (i : String) (pre : List Ev),
      StoreOK wf R → ProcOK wf pre →
      GoodTr R pre (runT wf i).2.2 ∧ StoreOK (runT wf i).2.1 R ∧
      ProcOK (runT wf i).2.1 (pre ++ (runT wf i).2.2) ∧
      (∃ s, Ev.settled i s ∈ pre ++ (runT wf i).2.2)) :
    ∀ (ds : List String) (wf : WfM) (pre : List Ev),
      StoreOK wf R → ProcOK wf pre →
      GoodTr R pre (runDeps runT wf ds).2.2 ∧
      StoreOK (runDeps runT wf ds).2.1 R ∧
      ProcOK (runDeps runT wf ds).2.1 (pre ++ (runDeps runT wf ds).2.2) ∧
      (∀ d ∈ ds, ∃ s, Ev.settled d s ∈ pre ++ (runDeps runT wf ds).2.2) := by
  intro ds
  induction ds with
  | nil =>
    intro wf pre hso hpo
    refine ⟨GoodTr_no_start (by intro j; simp [runDeps]), hso, ?_, ?_⟩
    · exact ProcOK_mono hpo []
    · intro d hd
      exact absurd hd (List.not_mem_nil d)
  | cons d ds ih =>
    intro wf pre hso hpo
    obtain ⟨g1, so1, p1, s0, hs0⟩ := hRT wf d pre hso hpo
    obtain ⟨g2, so2, p2, hall2⟩ := ih (runT wf d).2.1
      (pre ++ (runT wf d).2.2) so1 p1
    refine ⟨?_, ?_, ?_, ?_⟩
    · show GoodTr R pre
        ((runT wf d).2.2 ++ (runDeps runT (runT wf d).2.1 ds).2.2)
      exact GoodTr_append g1 g2
    · exact so2
    · show ProcOK (runDeps runT (runT wf d).2.1 ds).2.1
        (pre ++ ((runT wf d).2.2 ++ (runDeps runT (runT wf d).2.1 ds).2.2))
      rw [← List.append_assoc]
      exact p2
    · intro d' hd'
      rcases List.mem_cons.mp hd' with rfl | hmem
      · refine ⟨s0, ?_⟩
        show Ev.settled d' s0 ∈ pre ++
          ((runT wf d').2.2 ++ (runDeps runT (runT wf d').2.1 ds).2.2)
        rcases List.mem_append.mp hs0 with h1 | h2
        · exact List.mem_append_left _ h1
        · exact List.mem_append_right _ (List.mem_append_left _ h2)
      · obtain ⟨s, hs⟩ := hall2 d' hmem
        refine ⟨s, ?_⟩
        show Ev.settled d' s ∈ pre ++
          ((runT wf d).2.2 ++ (runDeps runT (runT wf d).2.1 ds).2.2)
        rw [← List.append_assoc]
        exact hs

theorem runTask_good {R : String → List String} :
    ∀ (fuel : Nat) (wf : WfM) (i : String) (pre : List Ev),
      StoreOK wf R → ProcOK wf pre →
      GoodTr R pre (runTask fuel wf i).2.2 ∧
      StoreOK (runTask fuel wf i).2.1 R ∧
      ProcOK (runTask fuel wf i).2.1 (pre ++ (runTask fuel wf i).2.2) ∧
      (∃ s, Ev.settled i s ∈ pre ++ (runTask fuel wf i).2.2) := by
  intro fuel
  induction fuel with
  | zero =>
    intro wf i pre hso hpo
    refine ⟨GoodTr_no_start (by intro j; simp [runTask]), hso, ?_, ?_⟩
    · exact ProcOK_mono hpo _
    · exact ⟨SettledV.rejected (.err "recursion fuel exhausted"),
        List.mem_append_right _ (by simp [runTask])⟩
  | succ fuel ih =>
    intro wf i pre hso hpo
    unfold runTask
    match hlp : lookupProc wf i with
    | some s =>
      simp only
      refine ⟨GoodTr_no_start (fun j => List.not_mem_nil _), hso, ?_, ?_⟩
      · exact ProcOK_mono hpo []
      · obtain ⟨s', hs'⟩ := hpo i (by rw [hlp]; rfl)
        exact ⟨s', List.mem_append_left _ hs'⟩
    | none =>
      match hsg : storeGet wf i with
      | none =>
        simp only
        refine ⟨GoodTr_no_start (by intro j; simp), hso, ?_, ?_⟩
        · exact ProcOK_mono hpo _
        · exact ⟨SettledV.rejected (.err ("Unknown task id: " ++ i)),
            List.mem_append_right _ (by simp)⟩
      | some t =>
        obtain ⟨hid, hrel⟩ := StoreOK_get hso hsg
        obtain ⟨g1, so1, p1, hall⟩ := runDeps_good (runTask fuel) ih
          t.reliesOn wf pre hso hpo
        simp only
        have hfr : GoodTr R
            (pre ++ (runDeps (runTask fuel) wf t.reliesOn).2.2)
            (finishRun (runDeps (runTask fuel) wf t.reliesOn).2.1 i
              (runDeps (runTask fuel) wf t.reliesOn).1).2.2 := by
          refine GoodTr_of_settled ?_ (finishRun_ev_ids _ i _ so1)
          intro d hd
          rw [← hrel] at hd
          exact hall d hd
        refine ⟨?_, ?_, ?_, ?_⟩
        · refine GoodTr_append (GoodTr_append g1 hfr) ?_
          exact GoodTr_no_start (fun j => by simp)
        · exact finishRun_StoreOK _ i _ so1
        · intro d hd
          by_cases hdi : d = i
          · subst hdi
            refine ⟨(finishRun (runDeps (runTask fuel) wf t.reliesOn).2.1 d
              (runDeps (runTask fuel) wf t.reliesOn).1).1, ?_⟩
            simp [List.mem_append]
          · have hd2 : (((procSet (finishRun
                (runDeps (runTask fuel) wf t.reliesOn).2.1 i
                (runDeps (runTask fuel) wf t.reliesOn).1).2.1.processed i
                (finishRun (runDeps (runTask fuel) wf t.reliesOn).2.1 i
                  (runDeps (runTask fuel) wf t.reliesOn).1).1).find?
                (fun p => p.1 = d)).map (fun p => p.2)).isSome = true := hd
            rw [find_procSet_ne _ _ _ hdi, finishRun_processed] at hd2
            have hd3 : (lookupProc
                (runDeps (runTask fuel) wf t.reliesOn).2.1 d).isSome :=
              hd2
            obtain ⟨s, hs⟩ := p1 d hd3
            refine ⟨s, ?_⟩
            rcases List.mem_append.mp hs with h1 | h2
            · exact List.mem_append_left _ h1
            · exact List.mem_append_right _
                (List.mem_append_left _ (List.mem_append_left _ h2))
        · refine ⟨(finishRun (runDeps (runTask fuel) wf t.reliesOn).2.1 i
            (runDeps (runTask fuel) wf t.reliesOn).1).1, ?_⟩
          simp [List.mem_append]

theorem runAll_good {R : String → List String} (fuel : Nat) :
    ∀ (ids : List String) (wf : WfM) (pre : List Ev),
      StoreOK wf R → ProcOK wf pre →
      GoodTr R pre (runAll fuel wf ids).2 ∧
      StoreOK (runAll fuel wf ids).1 R ∧
      ProcOK (runAll fuel wf ids).1 (pre ++ (runAll fuel wf ids).2) := by
  intro ids
  induction ids with
  | nil =>
    intro wf pre hso hpo
    exact ⟨GoodTr_no_start (by intro j; simp [runAll]), hso,
      ProcOK_mono hpo _⟩
  | cons i rest ih =>
    intro wf pre hso hpo
    unfold runAll
    by_cases hmem : (lookupProc wf i).isSome
    · rw [if_pos hmem]
      exact ih wf pre hso hpo
    · rw [if_neg hmem]
      obtain ⟨g1, so1, p1, -⟩ := runTask_good fuel wf i pre hso hpo
      obtain ⟨g2, so2, p2⟩ := ih (runTask fuel wf i).2.1
        (pre ++ (runTask fuel wf i).2.2) so1 p1
      simp only
      refine ⟨GoodTr_append g1 g2, so2, ?_⟩
      rw [← List.append_assoc]
      exact p2

theorem wfInvoke_begin_idle (wf : WfM) (h : wf.wstate = .idle) :
    wfInvoke wf .begin = (.ok (), { wf with wstate := WState.executing },
      [Ev.wBefore .begin, Ev.wLeave wf.wstate, Ev.wEnter .executing,
       Ev.wAfter .begin]) := by
  unfold wfInvoke
  rw [if_pos (show wf.wstate ∈ WTrans.src .begin by rw [h]; decide)]
  rw [show (if (WTrans.begin = WTrans.endT ∨ WTrans.begin = WTrans.abort)
      then drainRemove wf else wf) = wf from if_neg (by decide)]
  simp only
  rw [if_neg (show ¬ wf.wstate = WState.paused by rw [h]; decide)]
  simp only [WTrans.tgt]
  rfl

theorem wfInvoke_src_err (wf : WfM) (tr : WTrans)
    (h : wf.wstate ∉ tr.src) :
    wfInvoke wf tr = (.error ("Invalid state transition: "
      ++ wf.wstate.name ++ " -> " ++ tr.tgt.name), wf, []) := by
  unfold wfInvoke
  rw [if_neg h]

/-- C1: in the trace of a full `#process` run, every entry of a task into
`running` happens strictly after a settlement event of each of the task's
dependencies: wherever the trace splits around `tEnter i running`, every
`d ∈ R i` already has a `settled d _` event in the prefix (where `R` is
the stored `reliesOn` map of the workflow, which starts with an empty
`processed` memo). -/
theorem claim_C1 (fuel : Nat) (wf : WfM) (R : String → List String)
    (hso : StoreOK wf R) (hpr : wf.processed = []) :
    ∀ a i b, (processW fuel wf).2 = a ++ Ev.tEnter i .running :: b →
      ∀ d ∈ R i, ∃ s, Ev.settled d s ∈ a := by
  have hg : GoodTr R [] (processW fuel wf).2 := by
    unfold processW
    by_cases hw : wf.wstate = .idle
    · rw [wfInvoke_begin_idle wf hw]
      simp only
      rw [if_neg (show ¬ ({ wf with wstate := WState.executing } :
          WfM).wstate = WState.aborted by
        show ¬ WState.executing = WState.aborted
        decide)]
      refine GoodTr_append (GoodTr_no_start ?_) ?_
      · intro j
        simp
      · have hso2 : StoreOK
            (getOrderedM { wf with wstate := WState.executing }).2 R := hso
        have hpo2 : ProcOK
            (getOrderedM { wf with wstate := WState.executing }).2
            ([] ++ [Ev.wBefore .begin, Ev.wLeave wf.wstate,
              Ev.wEnter .executing, Ev.wAfter .begin]) :=
          ProcOK_of_nil hpr _
        exact (runAll_good fuel
          (getOrderedM { wf with wstate := WState.executing }).1
          (getOrderedM { wf with wstate := WState.executing }).2
          _ hso2 hpo2).1
    · rw [wfInvoke_src_err wf .begin
        (fun hmem => hw (by simpa [WTrans.src] using hmem))]
      exact GoodTr_no_start (fun j => List.not_mem_nil _)
  intro a i b heq d hd
  obtain ⟨s, hs⟩ := hg a i b heq d hd
  rw [List.nil_append] at hs
  exact ⟨s, hs⟩

/-- Witness for C1 on the two-task workflow `wfC1` (`B` relies on `A`):
the run's trace splits around `B`'s entry into `running`, and `A`'s
settlement event lies in the prefix. -/
theorem claim_C1_witness :
    StoreOK wfC1 RC1 ∧ wfC1.processed = [] ∧
    (processW 3 wfC1).2 = aC1 ++ Ev.tEnter "B" .running :: bC1 ∧
    (∀ d ∈ RC1 "B", ∃ s, Ev.settled d s ∈ aC1) :=
  ⟨by unfold StoreOK; decide, rfl, by decide,
    claim_C1 3 wfC1 RC1 (by unfold StoreOK; decide) rfl aC1 "B" bC1
      (by decide)⟩

end WfExec
